import Mathlib

/-!
# Verification of the A.C.A.S repertoire tree data model

Shallow embedding of `src/assets/js/acas-repertoire-data.js`.

JavaScript objects live on a heap and are compared / aliased by reference, so
we embed the node store as an arena: a `List RNode` indexed by allocation
order.  A JS object reference becomes the node's arena index (`Nat`); the
root node is always the arena's first entry (index `0`), because both the
constructor and `deserialize` allocate the root first.  `this.nodeMap`
(a JS `Map` from FEN string to node reference) becomes an association list
from `String` to arena index in which `set` prepends an entry and `get`
returns the most recently set binding, matching `Map.set`'s overwrite
semantics at every key (the repository never iterates over the map, so entry
order is unobservable).  `console.error`/`console.warn` side channels are
made explicit as a list of `LogMsg` values returned next to each result.
-/

/-- A `RepertoireNode` (acas-repertoire-data.js lines 6–39): FEN, the move
that produced the position, a parent reference (`null` for the root), the
ordered child list, and the user annotations. -/
structure RNode where
  fen : String
  move : String
  parent : Option Nat
  children : List Nat
  comment : String
  labels : List String
deriving Repr, DecidableEq

/-- A `RepertoireTree` (lines 44–49): the arena of allocated nodes (the root
is index 0) together with the FEN → node index `nodeMap`. -/
structure RTree where
  nodes : List RNode
  nodeMap : List (String × Nat)
deriving Repr, DecidableEq

/-- `Map.prototype.get`: the binding most recently `set` for the key. -/
def mapGet (m : List (String × Nat)) (k : String) : Option Nat :=
  (m.find? (fun e => e.1 = k)).map (fun e => e.2)

/-- `Map.prototype.set`: overwrite the binding for the key (modelled by
prepending, so `mapGet` sees the newest binding). -/
def mapSet (m : List (String × Nat)) (k : String) (v : Nat) : List (String × Nat) :=
  (k, v) :: m

/-- The `RepertoireTree` constructor (lines 45–49): a fresh tree holding
only a root node for the given FEN, registered in the map. -/
def newTree (rootFen : String) : RTree :=
  { nodes := [⟨rootFen, "root", none, [], "", []⟩]
    nodeMap := [(rootFen, 0)] }

/-- `RepertoireNode.findChildByMove` (lines 36–38): first child whose
`move` equals the requested notation.  Children are dereferenced through
the arena. -/
def findChildIn (nodes : List RNode) (n : RNode) (mv : String) : Option Nat :=
  n.children.find? (fun c => nodes[c]?.map (fun x => x.move) = some mv)

/-- Dereferencing variant: look a node up by index, then scan its children. -/
def findChild (t : RTree) (i : Nat) (mv : String) : Option Nat :=
  t.nodes[i]?.bind (fun n => findChildIn t.nodes n mv)

/-- The `console.error` / `console.warn` messages the data layer can emit. -/
inductive LogMsg where
  | errParentNotFound
  | warnLabelConflict
  | warnTransposition
  | errRootNotFound
  | warnLinkFail
deriving Repr, DecidableEq

/-- Result of `addMove`: the updated tree, the returned node reference
(`none` models the JS `null` return), and the emitted console messages. -/
structure AddResult where
  tree : RTree
  node : Option Nat
  logs : List LogMsg
deriving Repr, DecidableEq

/-- `RepertoireTree.addMove` (lines 58–92).  Looks the parent up in
`nodeMap`; on a miss logs an error and returns `null` leaving the tree
untouched.  If the parent already has a child carrying `move`, that child is
returned (with a warning when its FEN disagrees with `newFen`).  Otherwise a
node is allocated, appended to the parent's children and registered in the
map under `newFen` — after a transposition warning when `newFen` is already
mapped to a node whose parent is a different reference. -/
def addMove (t : RTree) (parentFen newFen mv : String) : AddResult :=
  match mapGet t.nodeMap parentFen with
  | none => ⟨t, none, [.errParentNotFound]⟩
  | some pid =>
    match t.nodes[pid]? with
    | none => ⟨t, none, [.errParentNotFound]⟩
    | some pnode =>
      match findChildIn t.nodes pnode mv with
      | some cid =>
        if t.nodes[cid]?.map (fun x => x.fen) = some newFen then
          ⟨t, some cid, []⟩
        else
          ⟨t, some cid, [.warnLabelConflict]⟩
      | none =>
        let warns : List LogMsg :=
          match mapGet t.nodeMap newFen with
          | some qid =>
            if t.nodes[qid]?.bind (fun x => x.parent) ≠ some pid then
              [.warnTransposition]
            else []
          | none => []
        let nid := t.nodes.length
        let nodes1 := t.nodes ++ [⟨newFen, mv, some pid, [], "", []⟩]
        let nodes2 := nodes1.set pid { pnode with children := pnode.children ++ [nid] }
        ⟨⟨nodes2, mapSet t.nodeMap newFen nid⟩, some nid, warns⟩

/-- `RepertoireTree.findNodeByFen` (lines 99–101): direct map lookup. -/
def findNodeByFen (t : RTree) (f : String) : Option Nat :=
  mapGet t.nodeMap f

/-- `RepertoireTree.findNodeByMoves` (lines 108–118): walk from the root,
taking `findChildByMove` steps; any failure propagates as `undefined`. -/
def findNodeByMoves (t : RTree) (ms : List String) : Option Nat :=
  ms.foldl (fun acc mv => acc.bind (fun i => findChild t i mv)) (some 0)

/-- One record of the serialized form (lines 138–145): the node's own data
plus the parent's `(fen, move)` pair (`none`/`null` for the root). -/
structure SRec where
  fen : String
  move : String
  comment : String
  labels : List String
  parentFen : Option String
  parentMove : Option String
deriving Repr, DecidableEq

/-- The dedup key `node.fen + '_' + node.move` used by `serialize`
(lines 135–136). -/
def concatKey (n : RNode) : String :=
  n.fen ++ "_" ++ n.move

/-- The record pushed for a node (lines 138–145). -/
def recOf (nodes : List RNode) (n : RNode) : SRec :=
  { fen := n.fen
    move := n.move
    comment := n.comment
    labels := n.labels
    parentFen := n.parent.bind (fun p => nodes[p]?.map (fun x => x.fen))
    parentMove := n.parent.bind (fun p => nodes[p]?.map (fun x => x.move)) }

/-- The `while (queue.length > 0)` loop of `serialize` (lines 133–148) as a
fuelled recursion: dequeue, skip when the `fen_move` string was already
visited, otherwise emit the record, mark visited and enqueue the children.
The fuel only bounds the number of iterations; `serializeRecords` seeds it
with `nodes.length + 1`, which is shown sufficient for well-formed trees
(each node is enqueued at most once there). -/
def serLoop (nodes : List RNode) : Nat → List Nat → List String → List SRec
  | 0, _, _ => []
  | _ + 1, [], _ => []
  | fuel + 1, i :: q, vis =>
    match nodes[i]? with
    | none => serLoop nodes fuel q vis
    | some n =>
      if concatKey n ∈ vis then
        serLoop nodes fuel q vis
      else
        recOf nodes n :: serLoop nodes fuel (q ++ n.children) (concatKey n :: vis)

/-- `RepertoireTree.serialize` (lines 124–150), up to the final
`JSON.stringify`: the flat list of records produced by the breadth-first walk
from the root. -/
def serializeRecords (t : RTree) : List SRec :=
  serLoop t.nodes (t.nodes.length + 1) [0] []

/-- The serialization loop as §4.4 of the specification words it: identical
to `serLoop` except that the visited set remembers the `(fen, move)` *pair*
of each emitted node rather than the concatenated string.  Used to compare
the code's dedup key against the spec's. -/
def specSerLoop (nodes : List RNode) : Nat → List Nat → List (String × String) → List SRec
  | 0, _, _ => []
  | _ + 1, [], _ => []
  | fuel + 1, i :: q, vis =>
    match nodes[i]? with
    | none => specSerLoop nodes fuel q vis
    | some n =>
      if (n.fen, n.move) ∈ vis then
        specSerLoop nodes fuel q vis
      else
        recOf nodes n :: specSerLoop nodes fuel (q ++ n.children) ((n.fen, n.move) :: vis)

/-- Serialization as the specification describes it (dedup by pair). -/
def specSerializeRecords (t : RTree) : List SRec :=
  specSerLoop t.nodes (t.nodes.length + 1) [0] []

/-- `a || b` on JS strings: the empty string is the only falsy string. -/
def jsOrElse (a b : String) : String :=
  if a = "" then b else a

/-- `tree.root.fen`: the FEN of the arena's root slot. -/
def rootFenStr (t : RTree) : String :=
  (t.nodes[0]?.map (fun n => n.fen)).getD ""

/-- One step of the node-materialization pass (lines 183–202): the root
record only re-registers the root in the map; any other record allocates a
fresh unlinked node *unless its FEN is already mapped* (the code comment on
line 193 says: "this will map only the first one encountered"). -/
def matStep (t : RTree) (data : SRec) : RTree :=
  if data.fen = rootFenStr t ∧ data.move = "root" then
    { t with nodeMap := mapSet t.nodeMap data.fen 0 }
  else if mapGet t.nodeMap data.fen = none then
    { nodes := t.nodes ++ [⟨data.fen, data.move, none, [], jsOrElse data.comment "", data.labels⟩]
      nodeMap := mapSet t.nodeMap data.fen t.nodes.length }
  else t

/-- The node-materialization pass: fold `matStep` over the records. -/
def materialize (rs : List SRec) (t : RTree) : RTree :=
  rs.foldl matStep t

/-- One step of the linking pass (lines 205–228).  For a record with a
non-null `parentFen`, resolve child and parent through the map; unless the
parent already has a child with the same `(fen, move)` pair, set the child's
parent reference, overwrite its move with the record's move, and append it
to the parent's children.  Unresolvable references are skipped with a
console warning. -/
def linkStep (t : RTree) (data : SRec) : RTree :=
  match data.parentFen with
  | none => t
  | some pf =>
    match mapGet t.nodeMap data.fen, mapGet t.nodeMap pf with
    | some cid, some pid =>
      match t.nodes[cid]?, t.nodes[pid]? with
      | some cnode, some pnode =>
        if pnode.children.any (fun c =>
            t.nodes[c]?.map (fun x => x.fen) = some cnode.fen ∧
            t.nodes[c]?.map (fun x => x.move) = some cnode.move) then
          t
        else
          let nodes1 := t.nodes.set cid { cnode with parent := some pid, move := data.move }
          let pnode1 := nodes1[pid]?.getD pnode
          { t with nodes := nodes1.set pid { pnode1 with children := pnode1.children ++ [cid] } }
      | _, _ => t
    | _, _ => t

/-- The linking pass: fold `linkStep` over the records. -/
def link (rs : List SRec) (t : RTree) : RTree :=
  rs.foldl linkStep t

/-- The final breadth-first walk rebuilding `nodeMap` from the linked tree
(lines 235–241); "this will overwrite if FENs are not unique, last one
processed wins".  Fuelled like `serLoop`; the seed `nodes.length + 1`
suffices whenever each node sits in at most one children list (in
particular for every tree the repository can actually build — on a cyclic
heap the JS loop would not terminate at all). -/
def rebuildLoop (nodes : List RNode) : Nat → List Nat → List (String × Nat) → List (String × Nat)
  | 0, _, m => m
  | _ + 1, [], m => m
  | fuel + 1, i :: q, m =>
    match nodes[i]? with
    | none => rebuildLoop nodes fuel q m
    | some n => rebuildLoop nodes fuel (q ++ n.children) (mapSet m n.fen i)

/-- Replace the tree's map by the one rebuilt from the linked structure. -/
def rebuildMap (t : RTree) : RTree :=
  { t with nodeMap := rebuildLoop t.nodes (t.nodes.length + 1) [0] [] }

/-- The outcome of `JSON.parse(jsonString)` on line 158.  `JSON.parse` is a
platform builtin, so only its observable outcomes are embedded: `malformed`
stands for the inputs on which it throws a `SyntaxError` (the empty string
among them), `falsy` for those yielding a falsy value (`"null"`, `"false"`,
`"0"`, `"\"\""`), and `arr rs` for those yielding an array of records of the
shape `serialize` emits. -/
inductive JsIn where
  | malformed
  | falsy
  | arr (rs : List SRec)
deriving Repr, DecidableEq

/-- `RepertoireTree.deserialize` (lines 157–245).  `Except.error ()` models
an exception escaping `deserialize` (the `SyntaxError` of `JSON.parse` is
not caught there; `loadFromLocalStorage` catches it instead).  A falsy or
empty parse, or a record list without a matching root record, degrades to a
fresh tree for the expected root FEN.  Otherwise the root is initialised
from the root record (`comment || ""`, `labels || []` — arrays are always
truthy) and the three passes run: materialize, link, rebuild the map.
The `nodeLookup` map built on lines 177–180 is never read afterwards and
has no observable effect, so it is omitted. -/
def deserialize (j : JsIn) (initialRootFen : String) : Except Unit RTree :=
  match j with
  | .malformed => .error ()
  | .falsy => .ok (newTree initialRootFen)
  | .arr rs =>
    if rs.length = 0 then .ok (newTree initialRootFen)
    else
      match rs.find? (fun r => r.move = "root" ∧ r.fen = initialRootFen) with
      | none => .ok (newTree initialRootFen)
      | some rootData =>
        let t0 : RTree :=
          { nodes := [⟨rootData.fen, "root", none, [], jsOrElse rootData.comment "", rootData.labels⟩]
            nodeMap := [(rootData.fen, 0)] }
        .ok (rebuildMap (link rs (materialize rs t0)))

/-! ## Basic lemmas about the map and arena operations -/

theorem mapGet_set_self (m : List (String × Nat)) (k : String) (v : Nat) :
    mapGet (mapSet m k v) k = some v := by
  simp [mapGet, mapSet, List.find?]

theorem mapGet_set_ne (m : List (String × Nat)) (k k' : String) (v : Nat) (h : k' ≠ k) :
    mapGet (mapSet m k v) k' = mapGet m k' := by
  simp only [mapGet, mapSet, List.find?]
  have : (decide (k = k')) = false := by simpa using fun h' => h h'.symm
  simp [this]

/-- The arena index returned by a successful map lookup. -/
theorem mapGet_eq_some_mem (m : List (String × Nat)) (k : String) (v : Nat)
    (h : mapGet m k = some v) : (k, v) ∈ m := by
  simp only [mapGet, Option.map_eq_some'] at h
  obtain ⟨e, he, hv⟩ := h
  have hk := List.find?_some he
  have hm := List.mem_of_find?_eq_some he
  obtain ⟨e1, e2⟩ := e
  simp only [decide_eq_true_eq] at hk
  cases hk; cases hv; exact hm

/-! ## C8: unknown parent key -/

/-- C8: for every tree and every `parentFen` that is not bound in the index,
`addMove` logs an error and returns the failure value (JS `null`, here
`none`) without creating any node or ancestor: the returned tree is exactly
the input tree, nodes and index untouched. -/
theorem addMove_unknown_parent (t : RTree) (pf nf mv : String)
    (h : mapGet t.nodeMap pf = none) :
    addMove t pf nf mv = ⟨t, none, [.errParentNotFound]⟩ := by
  simp [addMove, h]

/-- Witness for C8 at a concrete tree: the fresh tree for `"K0"` has no
binding for `"Q"`, and `addMove` fails there leaving the tree unchanged. -/
theorem addMove_unknown_parent_witness :
    mapGet (newTree "K0").nodeMap "Q" = none ∧
    addMove (newTree "K0") "Q" "K1" "e4" = ⟨newTree "K0", none, [.errParentNotFound]⟩ :=
  ⟨by decide, addMove_unknown_parent (newTree "K0") "Q" "K1" "e4" (by decide)⟩

/-! ## C9: path lookup -/

/-- C9: `findNodeByMoves` on the empty sequence returns the root (arena
index `0`), and on `ms ++ [mv]` it returns exactly the result of walking
`ms` and then taking one `findChildByMove` step — so a `none` at any step
propagates, and a path one move longer than any existing line (the walk
succeeds on `ms` but the final `findChildByMove` fails) yields `none`. -/
theorem findNodeByMoves_walk (t : RTree) :
    findNodeByMoves t [] = some 0 ∧
    ∀ (ms : List String) (mv : String),
      findNodeByMoves t (ms ++ [mv]) =
        (findNodeByMoves t ms).bind (fun i => findChild t i mv) := by
  refine ⟨rfl, fun ms mv => ?_⟩
  simp [findNodeByMoves, List.foldl_append]

/-! ## C2: behaviour of `deserialize` at its boundary -/

/-- Counterexample to C2 as stated: on input that `JSON.parse` cannot parse
— the empty string `""` is such an input, `JSON.parse("")` throws a
`SyntaxError` — `deserialize` does *not* return a root-only tree: the
exception escapes `deserialize` (line 158 has no `try`/`catch`), modelled
as `Except.error`.  Only `loadFromLocalStorage` catches it. -/
theorem deserialize_malformed_raises :
    deserialize .malformed "K0" = .error () ∧
    ∀ t : RTree, deserialize .malformed "K0" ≠ .ok t := by
  exact ⟨rfl, fun t h => by simp [deserialize] at h⟩

/-- C2 as amended: `deserialize` returns the root-only tree for the
expected root FEN whenever the input parses to a falsy value (`"null"`,
`"false"`, …), to the empty array, or to a record array containing no
record matching the expected root; but for *non-parseable* input (such as
the empty string) the `JSON.parse` exception propagates out of
`deserialize`, and it is the caller (`loadFromLocalStorage`) that degrades
to a fresh tree. -/
theorem deserialize_boundary (f : String) (rs : List SRec)
    (h : rs.find? (fun r => r.move = "root" ∧ r.fen = f) = none) :
    deserialize .falsy f = .ok (newTree f) ∧
    deserialize (.arr []) f = .ok (newTree f) ∧
    deserialize (.arr rs) f = .ok (newTree f) ∧
    deserialize .malformed f = .error () := by
  refine ⟨rfl, rfl, ?_, rfl⟩
  simp only [Bool.decide_and] at h
  by_cases hrs : rs.length = 0
  · simp [deserialize, hrs]
  · simp [deserialize, hrs, h]

/-- Witness for C2 (amended) at a concrete input: a single-record list
whose record is not a root record for `"K0"`. -/
theorem deserialize_boundary_witness :
    ([(⟨"X", "e4", "", [], some "K0", some "root"⟩ : SRec)].find?
        (fun r => r.move = "root" ∧ r.fen = "K0") = none) ∧
    deserialize (.arr [⟨"X", "e4", "", [], some "K0", some "root"⟩]) "K0" = .ok (newTree "K0") :=
  ⟨by decide,
   (deserialize_boundary "K0" [⟨"X", "e4", "", [], some "K0", some "root"⟩] (by decide)).2.2.1⟩

/-! ## C3: the node-materialization pass -/

theorem matStep_nodes_append (t : RTree) (r : SRec) :
    ∃ ext, (matStep t r).nodes = t.nodes ++ ext := by
  unfold matStep
  split
  · exact ⟨[], by simp⟩
  · split
    · exact ⟨_, rfl⟩
    · exact ⟨[], by simp⟩

theorem matStep_rootFen (t : RTree) (r : SRec) (h : t.nodes ≠ []) :
    rootFenStr (matStep t r) = rootFenStr t ∧ (matStep t r).nodes ≠ [] := by
  obtain ⟨ext, hext⟩ := matStep_nodes_append t r
  refine ⟨?_, by simp [hext, h]⟩
  simp only [rootFenStr, hext]
  rw [List.getElem?_append_left (List.length_pos.mpr h)]

theorem matStep_mapGet_stable (t : RTree) (r : SRec) (k : String) (id : Nat)
    (hk : k ≠ rootFenStr t) (h : mapGet t.nodeMap k = some id) :
    mapGet (matStep t r).nodeMap k = some id := by
  unfold matStep
  split
  · rename_i hc
    simp only
    rw [mapGet_set_ne _ _ _ _ (hc.1 ▸ hk)]
    exact h
  · split
    · rename_i hc2
      have hrk : r.fen ≠ k := fun he => by rw [he, h] at hc2; exact Option.noConfusion hc2
      simp only
      rw [mapGet_set_ne _ _ _ _ (Ne.symm hrk)]
      exact h
    · exact h

/-- C3 as amended: during the node-materialization pass it is the *earlier*
record that wins: an index entry, once present, is never overwritten by a
later record with the same position key (first-write-wins — the code
comment on line 193 states "this will map only the first one encountered"),
a record whose key is already bound is a complete no-op, and the pass only
ever appends fresh nodes. -/
theorem materialize_first_write_wins (rs : List SRec) (t : RTree) (k : String) (id : Nat)
    (hne : t.nodes ≠ []) (hk : k ≠ rootFenStr t) (h : mapGet t.nodeMap k = some id) :
    mapGet (materialize rs t).nodeMap k = some id ∧
    (∀ r : SRec, r.fen = k → matStep t r = t) ∧
    ∃ ext, (materialize rs t).nodes = t.nodes ++ ext := by
  refine ⟨?_, ?_, ?_⟩
  · induction rs generalizing t with
    | nil => exact h
    | cons r rs ih =>
      have hr := matStep_rootFen t r hne
      exact ih (matStep t r) hr.2 (hr.1 ▸ hk) (matStep_mapGet_stable t r k id hk h)
  · intro r hr
    unfold matStep
    split
    · rename_i hc
      exact absurd (hr ▸ hc.1) hk
    · split
      · rename_i hc2
        rw [hr, h] at hc2
        exact Option.noConfusion hc2
      · rfl
  · clear hk h
    induction rs generalizing t with
    | nil => exact ⟨[], by simp [materialize]⟩
    | cons r rs ih =>
      obtain ⟨ext0, hext0⟩ := matStep_nodes_append t r
      obtain ⟨ext1, hext1⟩ := ih (matStep t r) (matStep_rootFen t r hne).2
      exact ⟨ext0 ++ ext1, by
        show (materialize rs (matStep t r)).nodes = _
        rw [hext1, hext0, List.append_assoc]⟩

/-- Counterexample to C3 as stated: materialize the record sequence
`[root "R"; ("X","a","first"); ("X","b","second")]`.  The two non-root
records share the position key `"X"`, yet the later one does *not*
overwrite the temporary index entry: the pass allocates a single node
carrying the move `"a"` and comment `"first"` of the earlier record, the
index maps `"X"` to it, and the later record leaves no trace at all. -/
theorem materialize_later_record_loses :
    (materialize
        [⟨"R", "root", "", [], none, none⟩,
         ⟨"X", "a", "first", [], some "R", some "root"⟩,
         ⟨"X", "b", "second", [], some "R", some "root"⟩]
        (newTree "R")).nodes =
      [⟨"R", "root", none, [], "", []⟩, ⟨"X", "a", none, [], "first", []⟩] ∧
    mapGet
      (materialize
        [⟨"R", "root", "", [], none, none⟩,
         ⟨"X", "a", "first", [], some "R", some "root"⟩,
         ⟨"X", "b", "second", [], some "R", some "root"⟩]
        (newTree "R")).nodeMap "X" = some 1 := by
  constructor
  · rfl
  · rfl

/-- Witness for the amended C3 at a concrete state: `"X"` is already bound,
a later record with key `"X"` does not disturb the binding. -/
theorem materialize_first_write_wins_witness :
    ("X" ≠ rootFenStr ⟨[⟨"R", "root", none, [], "", []⟩, ⟨"X", "a", none, [], "first", []⟩],
        [("X", 1), ("R", 0)]⟩) ∧
    mapGet (materialize [⟨"X", "b", "second", [], some "R", some "root"⟩]
        ⟨[⟨"R", "root", none, [], "", []⟩, ⟨"X", "a", none, [], "first", []⟩],
         [("X", 1), ("R", 0)]⟩).nodeMap "X" = some 1 :=
  ⟨by decide,
   (materialize_first_write_wins
      [⟨"X", "b", "second", [], some "R", some "root"⟩]
      ⟨[⟨"R", "root", none, [], "", []⟩, ⟨"X", "a", none, [], "first", []⟩],
       [("X", 1), ("R", 0)]⟩
      "X" 1 (by decide) (by decide) (by decide)).1⟩

/-! ## Helper lemmas about the branches of `addMove` -/

theorem getElem?_append_single {α : Type} (N : List α) (x : α) (c : Nat) (h : c ≠ N.length) :
    (N ++ [x])[c]? = N[c]? := by
  rcases Nat.lt_or_ge c N.length with hlt | hge
  · exact List.getElem?_append_left hlt
  · have h1 : N.length + 1 ≤ c := Nat.lt_of_le_of_ne hge (Ne.symm h)
    rw [List.getElem?_eq_none (by simpa using h1), List.getElem?_eq_none hge]

theorem addMove_dangling (t : RTree) (pf nf mv : String) (pid : Nat)
    (hp : mapGet t.nodeMap pf = some pid) (hpn : t.nodes[pid]? = none) :
    addMove t pf nf mv = ⟨t, none, [.errParentNotFound]⟩ := by
  simp [addMove, hp, hpn]

theorem addMove_existing (t : RTree) (pf nf mv : String) (pid cid : Nat) (pnode : RNode)
    (hp : mapGet t.nodeMap pf = some pid) (hpn : t.nodes[pid]? = some pnode)
    (hc : findChildIn t.nodes pnode mv = some cid) :
    addMove t pf nf mv =
      if t.nodes[cid]?.map (fun x => x.fen) = some nf then ⟨t, some cid, []⟩
      else ⟨t, some cid, [.warnLabelConflict]⟩ := by
  simp only [addMove, hp, hpn, hc]

theorem addMove_create (t : RTree) (pf nf mv : String) (pid : Nat) (pnode : RNode)
    (hp : mapGet t.nodeMap pf = some pid) (hpn : t.nodes[pid]? = some pnode)
    (hc : findChildIn t.nodes pnode mv = none) :
    addMove t pf nf mv =
      ⟨⟨(t.nodes ++ [(⟨nf, mv, some pid, [], "", []⟩ : RNode)]).set pid
           { pnode with children := pnode.children ++ [t.nodes.length] },
        mapSet t.nodeMap nf t.nodes.length⟩,
       some t.nodes.length,
       (match mapGet t.nodeMap nf with
        | some qid =>
          if t.nodes[qid]?.bind (fun x => x.parent) ≠ some pid then [LogMsg.warnTransposition]
          else []
        | none => [])⟩ := by
  simp only [addMove, hp, hpn, hc]

/-- If every element of `l` satisfying `p` equals `x` and `p x` holds, the
first hit of `p` on `l ++ [x]` is `x`. -/
theorem find?_append_single_eq {α : Type} (l : List α) (p : α → Bool) (x : α)
    (hx : p x = true) (h : ∀ c ∈ l, p c = true → c = x) :
    (l ++ [x]).find? p = some x := by
  induction l with
  | nil => simp [List.find?, hx]
  | cons a l ih =>
    cases hpa : p a with
    | true =>
      have := h a (List.mem_cons_self a l) hpa
      subst this
      rw [List.cons_append, List.find?_cons_of_pos _ hpa]
    | false =>
      rw [List.cons_append, List.find?_cons_of_neg _ (by simp [hpa])]
      exact ih (fun c hc hpc => h c (List.mem_cons_of_mem _ hc) hpc)

/-- After the creation branch of `addMove`, the parent slot holds the
parent with the fresh child appended. -/
theorem create_nodes_pid (t : RTree) (nf mv : String) (pid : Nat) (pnode : RNode)
    (hpn : t.nodes[pid]? = some pnode) :
    ((t.nodes ++ [(⟨nf, mv, some pid, [], "", []⟩ : RNode)]).set pid
        { pnode with children := pnode.children ++ [t.nodes.length] })[pid]? =
      some { pnode with children := pnode.children ++ [t.nodes.length] } := by
  have hlt : pid < t.nodes.length := by
    by_contra hge
    rw [List.getElem?_eq_none (Nat.le_of_not_lt hge)] at hpn
    exact Option.noConfusion hpn
  exact List.getElem?_set_eq_of_lt _ (by simpa using Nat.lt_succ_of_lt hlt)

/-- After the creation branch, the fresh slot holds the fresh node. -/
theorem create_nodes_len (t : RTree) (nf mv : String) (pid : Nat) (pnode : RNode)
    (hpn : t.nodes[pid]? = some pnode) :
    ((t.nodes ++ [(⟨nf, mv, some pid, [], "", []⟩ : RNode)]).set pid
        { pnode with children := pnode.children ++ [t.nodes.length] })[t.nodes.length]? =
      some ⟨nf, mv, some pid, [], "", []⟩ := by
  have hlt : pid < t.nodes.length := by
    by_contra hge
    rw [List.getElem?_eq_none (Nat.le_of_not_lt hge)] at hpn
    exact Option.noConfusion hpn
  rw [List.getElem?_set_ne (Nat.ne_of_lt hlt)]
  exact List.getElem?_concat_length _ _

/-- After the creation branch, any slot other than the parent's and the
fresh one is untouched. -/
theorem create_nodes_other (t : RTree) (nf mv : String) (pid : Nat) (pnode : RNode) (c : Nat)
    (hcp : c ≠ pid) (hcl : c ≠ t.nodes.length) :
    ((t.nodes ++ [(⟨nf, mv, some pid, [], "", []⟩ : RNode)]).set pid
        { pnode with children := pnode.children ++ [t.nodes.length] })[c]? = t.nodes[c]? := by
  rw [List.getElem?_set_ne (Ne.symm hcp)]
  exact getElem?_append_single _ _ _ hcl

/-- After the creation branch, re-scanning the parent's children for the
same move finds exactly the fresh node. -/
theorem findChildIn_after_create (t : RTree) (nf mv : String) (pid : Nat) (pnode : RNode)
    (hpn : t.nodes[pid]? = some pnode)
    (hc : findChildIn t.nodes pnode mv = none) :
    findChildIn
      ((t.nodes ++ [(⟨nf, mv, some pid, [], "", []⟩ : RNode)]).set pid
        { pnode with children := pnode.children ++ [t.nodes.length] })
      { pnode with children := pnode.children ++ [t.nodes.length] } mv = some t.nodes.length := by
  have hold : ∀ x ∈ pnode.children, ¬ (t.nodes[x]?.map (fun y => y.move) = some mv) := by
    intro x hx
    have := List.find?_eq_none.mp hc x hx
    simpa using this
  unfold findChildIn
  apply find?_append_single_eq
  · simp [create_nodes_len t nf mv pid pnode hpn]
  · intro c hc2 hpc
    by_contra hne
    by_cases hcp : c = pid
    · rw [hcp, create_nodes_pid t nf mv pid pnode hpn] at hpc
      simp only [Option.map_some', decide_eq_true_eq] at hpc
      exact hold pid (hcp ▸ hc2) (by rw [hpn]; simpa using hpc)
    · rw [create_nodes_other t nf mv pid pnode c hcp hne] at hpc
      exact hold c hc2 (by simpa using hpc)

/-- Re-issuing a successful `addMove` with identical arguments (and
`parentFen ≠ newFen`, so the insertion has not re-pointed the parent's own
map entry) returns the same node and leaves the tree unchanged. -/
theorem addMove_repeat_stable (t : RTree) (pf nf mv : String) (n : Nat)
    (hpf : pf ≠ nf) (h : (addMove t pf nf mv).node = some n) :
    (addMove (addMove t pf nf mv).tree pf nf mv).tree = (addMove t pf nf mv).tree ∧
    (addMove (addMove t pf nf mv).tree pf nf mv).node = some n := by
  cases hmp : mapGet t.nodeMap pf with
  | none =>
    rw [addMove_unknown_parent t pf nf mv hmp] at h
    exact Option.noConfusion h
  | some pid =>
    cases hpn : t.nodes[pid]? with
    | none =>
      rw [addMove_dangling t pf nf mv pid hmp hpn] at h
      exact Option.noConfusion h
    | some pnode =>
      cases hc : findChildIn t.nodes pnode mv with
      | some cid =>
        have he := addMove_existing t pf nf mv pid cid pnode hmp hpn hc
        have htree : (addMove t pf nf mv).tree = t := by rw [he]; split <;> rfl
        have hnode : (addMove t pf nf mv).node = some cid := by rw [he]; split <;> rfl
        rw [hnode] at h
        refine ⟨?_, ?_⟩
        · rw [htree]; exact htree
        · rw [htree, hnode, h]
      | none =>
        have hcr := addMove_create t pf nf mv pid pnode hmp hpn hc
        have htree : (addMove t pf nf mv).tree =
            ⟨(t.nodes ++ [(⟨nf, mv, some pid, [], "", []⟩ : RNode)]).set pid
                { pnode with children := pnode.children ++ [t.nodes.length] },
              mapSet t.nodeMap nf t.nodes.length⟩ := by rw [hcr]
        have hnode : (addMove t pf nf mv).node = some t.nodes.length := by rw [hcr]
        rw [hnode] at h
        have h2p : mapGet (mapSet t.nodeMap nf t.nodes.length) pf = some pid := by
          rw [mapGet_set_ne _ _ _ _ hpf]; exact hmp
        have h2n := create_nodes_pid t nf mv pid pnode hpn
        have h2c := findChildIn_after_create t nf mv pid pnode hpn hc
        have he2 := addMove_existing
          ⟨(t.nodes ++ [(⟨nf, mv, some pid, [], "", []⟩ : RNode)]).set pid
              { pnode with children := pnode.children ++ [t.nodes.length] },
            mapSet t.nodeMap nf t.nodes.length⟩
          pf nf mv pid t.nodes.length
          { pnode with children := pnode.children ++ [t.nodes.length] }
          h2p h2n h2c
        have hfen :
            ((t.nodes ++ [(⟨nf, mv, some pid, [], "", []⟩ : RNode)]).set pid
              { pnode with children := pnode.children ++ [t.nodes.length] })[t.nodes.length]?.map
                (fun x => x.fen) = some nf := by
          rw [create_nodes_len t nf mv pid pnode hpn]
          rfl
        refine ⟨?_, ?_⟩
        · rw [htree, he2, if_pos hfen]
        · rw [htree, he2, if_pos hfen, h]

/-! ## C4: idempotent re-insertion and label–key conflicts -/

/-- Counterexample to C4 as stated: insert `addMove("r", "r", "m")` twice
into the fresh tree rooted at `"r"` (the parent key and the new key are the
same string — position keys are opaque, so this is a legal call).  The
first call allocates node 1 and re-points the index entry for `"r"` at it;
the second call therefore resolves the *parent* to node 1 and allocates a
fresh node 2 beneath it: the two identical calls return two different
nodes, contradicting the claimed idempotence. -/
theorem addMove_twice_differs :
    (addMove (newTree "r") "r" "r" "m").node = some 1 ∧
    (addMove (addMove (newTree "r") "r" "r" "m").tree "r" "r" "m").node = some 2 ∧
    (1 : Nat) ≠ 2 := by
  refine ⟨rfl, rfl, by decide⟩

/-- C4 as amended: (a) when the parent resolved from the index already has
a child labelled `mv` whose FEN equals `newFen`, `addMove` returns that
child and changes nothing; (b) when that child's FEN differs, `addMove`
still returns it unchanged but surfaces the non-fatal label-conflict
warning; (c) re-running a successful `addMove` with identical arguments
yields the same node and an unchanged tree (hence an unchanged child
count) — *provided* `parentFen ≠ newFen`; when the two keys coincide the
first insertion re-points the parent's own index entry and the repetition
is no longer idempotent (see the counterexample). -/
theorem addMove_idempotent_cases (t : RTree) (pf nf mv : String) :
    (∀ pid pnode cid,
        mapGet t.nodeMap pf = some pid →
        t.nodes[pid]? = some pnode →
        findChildIn t.nodes pnode mv = some cid →
        (t.nodes[cid]?.map (fun x => x.fen) = some nf →
          addMove t pf nf mv = ⟨t, some cid, []⟩) ∧
        (t.nodes[cid]?.map (fun x => x.fen) ≠ some nf →
          addMove t pf nf mv = ⟨t, some cid, [.warnLabelConflict]⟩)) ∧
    (pf ≠ nf → ∀ n, (addMove t pf nf mv).node = some n →
      (addMove (addMove t pf nf mv).tree pf nf mv).tree = (addMove t pf nf mv).tree ∧
      (addMove (addMove t pf nf mv).tree pf nf mv).node = some n) := by
  refine ⟨fun pid pnode cid hp hpn hc => ?_, fun hpf n h => addMove_repeat_stable t pf nf mv n hpf h⟩
  have he := addMove_existing t pf nf mv pid cid pnode hp hpn hc
  exact ⟨fun hfen => by rw [he, if_pos hfen], fun hfen => by rw [he, if_neg hfen]⟩

/-- Witness for C4 at a concrete tree: after inserting `e4` once, re-adding
the same move with the matching key returns the same node 1 with no
warning and leaves the tree unchanged, and the repeat-stability clause
applies to the fresh insertion as well. -/
theorem addMove_idempotent_cases_witness :
    addMove (addMove (newTree "K0") "K0" "K1" "e4").tree "K0" "K1" "e4" =
      ⟨(addMove (newTree "K0") "K0" "K1" "e4").tree, some 1, []⟩ ∧
    (addMove (addMove (newTree "K0") "K0" "K1" "e4").tree "K0" "K1" "e4").tree =
      (addMove (newTree "K0") "K0" "K1" "e4").tree := by
  constructor
  · exact ((addMove_idempotent_cases (addMove (newTree "K0") "K0" "K1" "e4").tree
      "K0" "K1" "e4").1 0 ⟨"K0", "root", none, [1], "", []⟩ 1
      (by decide) (by decide) (by decide)).1 (by decide)
  · exact ((addMove_idempotent_cases (newTree "K0") "K0" "K1" "e4").2
      (by decide) 1 (by decide)).1

/-! ## C10: the root's own index entry is not protected -/

/-- C10: a successful insertion whose `newFen` equals the root's own FEN
creates a fresh node and re-points the index entry for that FEN at it, so
`findNodeByFen` afterwards returns the new node (arena index
`t.nodes.length ≠ 0`) rather than the root, while `findNodeByMoves []`
still returns the root (index 0) because it starts from `tree.root`
directly and never consults the map. -/
theorem addMove_root_key_unprotected (t : RTree) (pf mv : String) (pid : Nat)
    (pnode rootNode : RNode)
    (hroot : t.nodes[0]? = some rootNode)
    (hp : mapGet t.nodeMap pf = some pid)
    (hpn : t.nodes[pid]? = some pnode)
    (hc : findChildIn t.nodes pnode mv = none) :
    (addMove t pf rootNode.fen mv).node = some t.nodes.length ∧
    findNodeByFen (addMove t pf rootNode.fen mv).tree rootNode.fen = some t.nodes.length ∧
    t.nodes.length ≠ 0 ∧
    (addMove t pf rootNode.fen mv).tree.nodes[t.nodes.length]? =
      some ⟨rootNode.fen, mv, some pid, [], "", []⟩ ∧
    findNodeByMoves (addMove t pf rootNode.fen mv).tree [] = some 0 := by
  have hcr := addMove_create t pf rootNode.fen mv pid pnode hp hpn hc
  have hlen : 0 < t.nodes.length := by
    by_contra hzero
    rw [List.getElem?_eq_none (Nat.le_of_not_lt hzero)] at hroot
    exact Option.noConfusion hroot
  refine ⟨by rw [hcr], ?_, Nat.pos_iff_ne_zero.mp hlen, ?_, rfl⟩
  · rw [hcr]
    exact mapGet_set_self _ _ _
  · rw [hcr]
    exact create_nodes_len t rootNode.fen mv pid pnode hpn

/-- Witness for C10: insert the root key `"K0"` again under the root
itself; the index entry for `"K0"` now points at node 1, not the root. -/
theorem addMove_root_key_unprotected_witness :
    findNodeByFen (addMove (newTree "K0") "K0" "K0" "e4").tree "K0" = some 1 ∧
    findNodeByMoves (addMove (newTree "K0") "K0" "K0" "e4").tree [] = some 0 := by
  have h := addMove_root_key_unprotected (newTree "K0") "K0" "e4" 0
    ⟨"K0", "root", none, [], "", []⟩ ⟨"K0", "root", none, [], "", []⟩
    (by decide) (by decide) (by decide) (by decide)
  exact ⟨h.2.1, h.2.2.2.2⟩

/-! ## C5: transpositions duplicate nodes; paths survive, the index is lossy -/

/-- Every child reference stored in the arena is itself a valid arena
index.  This holds for every tree the repository can construct (JS object
references cannot dangle); it is the only structural fact the
path-stability argument needs. -/
def childrenValid (nodes : List RNode) : Prop :=
  ∀ p ∈ List.range nodes.length,
    ∀ c ∈ (nodes[p]?.map (fun n => n.children)).getD [], c < nodes.length

instance (nodes : List RNode) : Decidable (childrenValid nodes) := by
  unfold childrenValid
  infer_instance

theorem find?_congr_on {α : Type} (l : List α) (p q : α → Bool)
    (h : ∀ c ∈ l, p c = q c) : l.find? p = l.find? q := by
  induction l with
  | nil => rfl
  | cons a l ih =>
    cases hpa : p a with
    | true =>
      rw [List.find?_cons_of_pos _ hpa, List.find?_cons_of_pos _ ((h a (List.mem_cons_self a l)) ▸ hpa)]
    | false =>
      rw [List.find?_cons_of_neg _ (by simp [hpa]),
        List.find?_cons_of_neg _ (by simp [← h a (List.mem_cons_self a l), hpa])]
      exact ih fun c hc => h c (List.mem_cons_of_mem _ hc)

theorem find?_append_left_some {α : Type} (l l2 : List α) (p : α → Bool) (x : α)
    (h : l.find? p = some x) : (l ++ l2).find? p = some x := by
  induction l with
  | nil => exact Option.noConfusion h
  | cons a l ih =>
    cases hpa : p a with
    | true =>
      rw [List.find?_cons_of_pos _ hpa] at h
      rw [List.cons_append, List.find?_cons_of_pos _ hpa]
      exact h
    | false =>
      rw [List.find?_cons_of_neg _ (by simp [hpa])] at h
      rw [List.cons_append, List.find?_cons_of_neg _ (by simp [hpa])]
      exact ih h

theorem foldl_bind_none (path : List String) (f : Nat → String → Option Nat) :
    path.foldl (fun acc mv => acc.bind (fun x => f x mv)) none = none := by
  induction path with
  | nil => rfl
  | cons mv path ih => exact ih

theorem create_move_preserved (t : RTree) (nf mv : String) (pid : Nat) (pnode : RNode)
    (hpn : t.nodes[pid]? = some pnode) (c : Nat) (hlt : c < t.nodes.length) :
    ((t.nodes ++ [(⟨nf, mv, some pid, [], "", []⟩ : RNode)]).set pid
        { pnode with children := pnode.children ++ [t.nodes.length] })[c]?.map (fun x => x.move) =
      t.nodes[c]?.map (fun x => x.move) := by
  by_cases hcp : c = pid
  · rw [hcp, create_nodes_pid t nf mv pid pnode hpn, hpn]
    rfl
  · rw [create_nodes_other t nf mv pid pnode c hcp (Nat.ne_of_lt hlt)]

/-- A `findChildByMove` step that succeeded before a creating `addMove`
still returns the same child afterwards, and that child is a valid index. -/
theorem findChild_create_stable (t : RTree) (pf nf mv : String) (pid : Nat) (pnode : RNode)
    (hv : childrenValid t.nodes)
    (hp : mapGet t.nodeMap pf = some pid) (hpn : t.nodes[pid]? = some pnode)
    (hc : findChildIn t.nodes pnode mv = none)
    (i : Nat) (hi : i < t.nodes.length) (mv' : String) (x : Nat)
    (hfx : findChild t i mv' = some x) :
    findChild (addMove t pf nf mv).tree i mv' = some x ∧ x < t.nodes.length := by
  rw [addMove_create t pf nf mv pid pnode hp hpn hc]
  cases hni : t.nodes[i]? with
  | none =>
    unfold findChild at hfx
    rw [hni] at hfx
    exact Option.noConfusion hfx
  | some n =>
    unfold findChild findChildIn at hfx
    rw [hni] at hfx
    rw [Option.some_bind] at hfx
    have hxmem : x ∈ n.children := List.mem_of_find?_eq_some hfx
    have hxlt : x < t.nodes.length := by
      have := hv i (List.mem_range.mpr hi) x
      rw [hni] at this
      exact this hxmem
    have hcongr : ∀ c ∈ n.children,
        (decide (((t.nodes ++ [(⟨nf, mv, some pid, [], "", []⟩ : RNode)]).set pid
            { pnode with children := pnode.children ++ [t.nodes.length] })[c]?.map
              (fun x => x.move) = some mv')) =
        (decide (t.nodes[c]?.map (fun x => x.move) = some mv')) := by
      intro c hcmem
      have hclt : c < t.nodes.length := by
        have := hv i (List.mem_range.mpr hi) c
        rw [hni] at this
        exact this hcmem
      simp only [create_move_preserved t nf mv pid pnode hpn c hclt]
    refine ⟨?_, hxlt⟩
    by_cases hip : i = pid
    · have hnp : n = pnode := by
        rw [hip, hpn] at hni
        exact (Option.some.injEq _ _ ▸ hni).symm
      unfold findChild findChildIn
      rw [hip, create_nodes_pid t nf mv pid pnode hpn]
      rw [Option.some_bind]
      apply find?_append_left_some
      rw [find?_congr_on pnode.children _ _ (hnp ▸ hcongr)]
      exact hnp ▸ hfx
    · unfold findChild findChildIn
      rw [create_nodes_other t nf mv pid pnode i hip (Nat.ne_of_lt hi), hni]
      rw [Option.some_bind]
      rw [find?_congr_on n.children _ _ hcongr]
      exact hfx

theorem create_fen_preserved (t : RTree) (nf mv : String) (pid : Nat) (pnode : RNode)
    (hpn : t.nodes[pid]? = some pnode) (c : Nat) (hlt : c < t.nodes.length) :
    ((t.nodes ++ [(⟨nf, mv, some pid, [], "", []⟩ : RNode)]).set pid
        { pnode with children := pnode.children ++ [t.nodes.length] })[c]?.map (fun x => x.fen) =
      t.nodes[c]?.map (fun x => x.fen) := by
  by_cases hcp : c = pid
  · rw [hcp, create_nodes_pid t nf mv pid pnode hpn, hpn]
    rfl
  · rw [create_nodes_other t nf mv pid pnode c hcp (Nat.ne_of_lt hlt)]

/-- A whole move path that resolved before a creating `addMove` still
resolves to the same node afterwards. -/
theorem findNodeByMoves_create_stable (t : RTree) (pf nf mv : String) (pid : Nat) (pnode : RNode)
    (hv : childrenValid t.nodes)
    (hp : mapGet t.nodeMap pf = some pid) (hpn : t.nodes[pid]? = some pnode)
    (hc : findChildIn t.nodes pnode mv = none) :
    ∀ (path : List String) (j : Nat), findNodeByMoves t path = some j →
      findNodeByMoves (addMove t pf nf mv).tree path = some j ∧ j < t.nodes.length := by
  have hpidlt : pid < t.nodes.length := by
    by_contra hge
    rw [List.getElem?_eq_none (Nat.le_of_not_lt hge)] at hpn
    exact Option.noConfusion hpn
  suffices h : ∀ (path : List String) (i : Nat), i < t.nodes.length →
      ∀ j, path.foldl (fun acc mv' => acc.bind (fun x => findChild t x mv')) (some i) = some j →
        path.foldl (fun acc mv' => acc.bind (fun x => findChild (addMove t pf nf mv).tree x mv'))
            (some i) = some j ∧
          j < t.nodes.length by
    intro path j hj
    exact h path 0 (Nat.lt_of_le_of_lt (Nat.zero_le pid) hpidlt) j hj
  intro path
  induction path with
  | nil =>
    intro i hi j hj
    rw [List.foldl_nil] at hj
    exact ⟨hj, by rw [← Option.some_inj.mp hj]; exact hi⟩
  | cons mv' path ih =>
    intro i hi j hj
    rw [List.foldl_cons, Option.some_bind] at hj
    cases hstep : findChild t i mv' with
    | none =>
      rw [hstep, foldl_bind_none] at hj
      exact Option.noConfusion hj
    | some x =>
      rw [hstep] at hj
      obtain ⟨hstep2, hxlt⟩ :=
        findChild_create_stable t pf nf mv pid pnode hv hp hpn hc i hi mv' x hstep
      rw [List.foldl_cons, Option.some_bind, hstep2]
      exact ih x hxlt j hj

/-- C5: when `newFen` is already bound in the index to a node under a
different parent (a transposition) and the parent has no child labelled
`mv`, `addMove` still creates and attaches a fresh node (after a
transposition warning), re-points the index entry at it — so
`findNodeByFen newFen` afterwards returns only this later node, which is
distinct from the earlier one — while every move path that resolved before
still resolves to the same node with an unchanged FEN (in particular the
earlier path to the transposed key still reaches a node carrying it). -/
theorem addMove_transposition (t : RTree) (pf nf mv : String) (pid qid : Nat)
    (pnode qnode : RNode)
    (hv : childrenValid t.nodes)
    (hp : mapGet t.nodeMap pf = some pid)
    (hpn : t.nodes[pid]? = some pnode)
    (hc : findChildIn t.nodes pnode mv = none)
    (hq : mapGet t.nodeMap nf = some qid)
    (hqn : t.nodes[qid]? = some qnode)
    (hqp : qnode.parent ≠ some pid) :
    (addMove t pf nf mv).node = some t.nodes.length ∧
    (addMove t pf nf mv).logs = [.warnTransposition] ∧
    (addMove t pf nf mv).tree.nodes[t.nodes.length]? =
      some ⟨nf, mv, some pid, [], "", []⟩ ∧
    (addMove t pf nf mv).tree.nodes[pid]? =
      some { pnode with children := pnode.children ++ [t.nodes.length] } ∧
    findNodeByFen (addMove t pf nf mv).tree nf = some t.nodes.length ∧
    t.nodes.length ≠ qid ∧
    (∀ path j, findNodeByMoves t path = some j →
      findNodeByMoves (addMove t pf nf mv).tree path = some j ∧
      (addMove t pf nf mv).tree.nodes[j]?.map (fun x => x.fen) =
        t.nodes[j]?.map (fun x => x.fen)) := by
  have hcr := addMove_create t pf nf mv pid pnode hp hpn hc
  have hqlt : qid < t.nodes.length := by
    by_contra hge
    rw [List.getElem?_eq_none (Nat.le_of_not_lt hge)] at hqn
    exact Option.noConfusion hqn
  refine ⟨by rw [hcr], ?_, ?_, ?_, ?_, ?_, ?_⟩
  · rw [hcr]
    simp [hq, hqn, hqp]
  · rw [hcr]
    exact create_nodes_len t nf mv pid pnode hpn
  · rw [hcr]
    exact create_nodes_pid t nf mv pid pnode hpn
  · rw [hcr]
    exact mapGet_set_self _ _ _
  · exact Ne.symm (Nat.ne_of_lt hqlt)
  · intro path j hj
    obtain ⟨h1, hlt⟩ := findNodeByMoves_create_stable t pf nf mv pid pnode hv hp hpn hc path j hj
    refine ⟨h1, ?_⟩
    rw [hcr]
    exact create_fen_preserved t nf mv pid pnode hpn j hlt

/-- Witness for C5: two paths (`a x` and the fresh `b y`) reach key `K9`;
after the second insertion the index answers the later node 4, while the
earlier path `a x` still reaches node 3 carrying `K9`. -/
theorem addMove_transposition_witness :
    findNodeByFen
      (addMove (addMove (addMove (addMove (newTree "K0") "K0" "K1" "a").tree
          "K0" "K2" "b").tree "K1" "K9" "x").tree "K2" "K9" "y").tree "K9" = some 4 ∧
    findNodeByMoves
      (addMove (addMove (addMove (addMove (newTree "K0") "K0" "K1" "a").tree
          "K0" "K2" "b").tree "K1" "K9" "x").tree "K2" "K9" "y").tree ["a", "x"] = some 3 ∧
    (addMove (addMove (addMove (addMove (newTree "K0") "K0" "K1" "a").tree
          "K0" "K2" "b").tree "K1" "K9" "x").tree "K2" "K9" "y").tree.nodes[3]?.map
      (fun x => x.fen) = some "K9" := by
  have h := addMove_transposition
    (addMove (addMove (addMove (newTree "K0") "K0" "K1" "a").tree "K0" "K2" "b").tree
      "K1" "K9" "x").tree
    "K2" "K9" "y" 2 3
    ⟨"K2", "b", some 0, [], "", []⟩ ⟨"K9", "x", some 1, [], "", []⟩
    (by decide) (by decide) (by decide) (by decide) (by decide) (by decide) (by decide)
  obtain ⟨hpath, hfen⟩ := h.2.2.2.2.2.2 ["a", "x"] 3 (by decide)
  refine ⟨h.2.2.2.2.1, hpath, ?_⟩
  rw [hfen]
  decide

/-! ## Structural well-formedness of reachable trees -/

/-- The children list stored at arena slot `p` (empty for an invalid slot). -/
def childrenOf (nodes : List RNode) (p : Nat) : List Nat :=
  (nodes[p]?.map (fun n => n.children)).getD []

/-- No two children of one node carry the same move label (the values are
compared through the arena, as `findChildByMove` does). -/
def siblingMovesUnique (nodes : List RNode) : Prop :=
  ∀ p ∈ List.range nodes.length,
    ((childrenOf nodes p).map (fun c => nodes[c]?.map (fun x => x.move))).Nodup

instance (nodes : List RNode) : Decidable (siblingMovesUnique nodes) := by
  unfold siblingMovesUnique
  infer_instance

/-- Structural invariant of every tree the repository can build with its
constructor and `addMove`: the arena is nonempty with the root in slot 0
(no parent, sentinel move), child references are valid and point strictly
forward (children are allocated after their parents), every non-root node
sits in exactly one children list with a consistent parent back-reference,
children lists have no duplicates, and sibling move labels are unique. -/
def WF (t : RTree) : Prop :=
  0 < t.nodes.length ∧
  t.nodes[0]?.map (fun n => n.parent) = some none ∧
  t.nodes[0]?.map (fun n => n.move) = some "root" ∧
  (∀ p ∈ List.range t.nodes.length, ∀ c ∈ childrenOf t.nodes p,
    c < t.nodes.length ∧ p < c) ∧
  (∀ i ∈ List.range t.nodes.length, i ≠ 0 →
    ∃ p ∈ List.range t.nodes.length, i ∈ childrenOf t.nodes p) ∧
  (∀ p ∈ List.range t.nodes.length, ∀ q ∈ List.range t.nodes.length,
    ∀ i, i ∈ childrenOf t.nodes p → i ∈ childrenOf t.nodes q → p = q) ∧
  (∀ p ∈ List.range t.nodes.length, (childrenOf t.nodes p).Nodup) ∧
  (∀ p ∈ List.range t.nodes.length, ∀ i ∈ childrenOf t.nodes p,
    t.nodes[i]?.map (fun n => n.parent) = some (some p)) ∧
  siblingMovesUnique t.nodes

instance (t : RTree) : Decidable (WF t) := by
  unfold WF
  infer_instance

/-- The trees reachable from a fresh tree by `addMove` calls.  A failing
`addMove` returns the tree unchanged, so restricting the step to
successful calls loses no reachable tree. -/
inductive Built : RTree → Prop
  | fresh (rootFen : String) : Built (newTree rootFen)
  | step (t : RTree) (pf nf mv : String) (n : Nat) :
      Built t → (addMove t pf nf mv).node = some n → Built (addMove t pf nf mv).tree

theorem WF_childrenValid (t : RTree) (h : WF t) : childrenValid t.nodes := by
  intro p hp c hc
  exact (h.2.2.2.1 p hp c hc).1

theorem WF_newTree (f : String) : WF (newTree f) := by
  have hlen : (newTree f).nodes.length = 1 := rfl
  refine ⟨by rw [hlen]; exact Nat.one_pos, rfl, rfl, ?_, ?_, ?_, ?_, ?_, ?_⟩
  · intro p hp c hc
    have hp0 : p = 0 := by rw [hlen] at hp; simpa using hp
    rw [hp0] at hc
    simp [childrenOf, newTree] at hc
  · intro i hi hne
    have : i = 0 := by rw [hlen] at hi; simpa using hi
    exact absurd this hne
  · intro p hp q hq i hip hiq
    have hp0 : p = 0 := by rw [hlen] at hp; simpa using hp
    have hq0 : q = 0 := by rw [hlen] at hq; simpa using hq
    rw [hp0, hq0]
  · intro p hp
    have hp0 : p = 0 := by rw [hlen] at hp; simpa using hp
    rw [hp0]
    simp [childrenOf, newTree]
  · intro p hp i hip
    have hp0 : p = 0 := by rw [hlen] at hp; simpa using hp
    rw [hp0] at hip
    simp [childrenOf, newTree] at hip
  · intro p hp
    have hp0 : p = 0 := by rw [hlen] at hp; simpa using hp
    rw [hp0]
    simp [siblingMovesUnique, childrenOf, newTree]

theorem create_parent_preserved (t : RTree) (nf mv : String) (pid : Nat) (pnode : RNode)
    (hpn : t.nodes[pid]? = some pnode) (c : Nat) (hlt : c < t.nodes.length) :
    ((t.nodes ++ [(⟨nf, mv, some pid, [], "", []⟩ : RNode)]).set pid
        { pnode with children := pnode.children ++ [t.nodes.length] })[c]?.map (fun x => x.parent) =
      t.nodes[c]?.map (fun x => x.parent) := by
  by_cases hcp : c = pid
  · rw [hcp, create_nodes_pid t nf mv pid pnode hpn, hpn]
    rfl
  · rw [create_nodes_other t nf mv pid pnode c hcp (Nat.ne_of_lt hlt)]

theorem childrenOf_valid_slot (nodes : List RNode) (p i : Nat)
    (h : i ∈ childrenOf nodes p) : p < nodes.length := by
  by_contra hge
  unfold childrenOf at h
  rw [List.getElem?_eq_none (Nat.le_of_not_lt hge)] at h
  simp at h

/-- The creation branch of `addMove` preserves the structural invariant. -/
theorem WF_create (t : RTree) (nf mv : String) (pid : Nat) (pnode : RNode)
    (h : WF t) (hpn : t.nodes[pid]? = some pnode)
    (hc : findChildIn t.nodes pnode mv = none) :
    WF ⟨(t.nodes ++ [(⟨nf, mv, some pid, [], "", []⟩ : RNode)]).set pid
          { pnode with children := pnode.children ++ [t.nodes.length] },
        mapSet t.nodeMap nf t.nodes.length⟩ := by
  obtain ⟨h1, h2, h3, h4, h5, h6, h7, h8, h9⟩ := h
  have hpidlt : pid < t.nodes.length := by
    by_contra hge
    rw [List.getElem?_eq_none (Nat.le_of_not_lt hge)] at hpn
    exact Option.noConfusion hpn
  set len := t.nodes.length with hlendef
  set N2 := (t.nodes ++ [(⟨nf, mv, some pid, [], "", []⟩ : RNode)]).set pid
      { pnode with children := pnode.children ++ [len] } with hN2
  have hlen2 : N2.length = len + 1 := by
    rw [hN2]
    simp
  have hgpid : N2[pid]? = some { pnode with children := pnode.children ++ [len] } :=
    create_nodes_pid t nf mv pid pnode hpn
  have hglen : N2[len]? = some ⟨nf, mv, some pid, [], "", []⟩ :=
    create_nodes_len t nf mv pid pnode hpn
  have hgo : ∀ c, c ≠ pid → c ≠ len → N2[c]? = t.nodes[c]? :=
    fun c hcp hcl => create_nodes_other t nf mv pid pnode c hcp hcl
  have hchildt : childrenOf t.nodes pid = pnode.children := by
    unfold childrenOf
    rw [hpn]
    rfl
  have hcpid : childrenOf N2 pid = pnode.children ++ [len] := by
    unfold childrenOf
    rw [hgpid]
    rfl
  have hclen : childrenOf N2 len = [] := by
    unfold childrenOf
    rw [hglen]
    rfl
  have hco : ∀ c, c ≠ pid → c ≠ len → childrenOf N2 c = childrenOf t.nodes c := by
    intro c hcp hcl
    unfold childrenOf
    rw [hgo c hcp hcl]
  have hmem : ∀ p i, i ∈ childrenOf N2 p →
      i ∈ childrenOf t.nodes p ∨ (p = pid ∧ i = len) := by
    intro p i hi
    by_cases hp1 : p = pid
    · rw [hp1, hcpid] at hi
      rcases List.mem_append.mp hi with h1 | h1
      · left
        rw [hp1, hchildt]
        exact h1
      · right
        exact ⟨hp1, by simpa using h1⟩
    · by_cases hp2 : p = len
      · rw [hp2, hclen] at hi
        cases hi
      · left
        rw [hco p hp1 hp2] at hi
        exact hi
  refine ⟨?_, ?_, ?_, ?_, ?_, ?_, ?_, ?_, ?_⟩
  · rw [hlen2]
    exact Nat.succ_pos len
  · show N2[0]?.map (fun n => n.parent) = some none
    by_cases hp0 : pid = 0
    · rw [← hp0, hgpid]
      rw [← hp0, hpn] at h2
      simpa using h2
    · rw [hgo 0 (fun he => hp0 he.symm) (Nat.ne_of_lt h1)]
      exact h2
  · show N2[0]?.map (fun n => n.move) = some "root"
    by_cases hp0 : pid = 0
    · rw [← hp0, hgpid]
      rw [← hp0, hpn] at h3
      simpa using h3
    · rw [hgo 0 (fun he => hp0 he.symm) (Nat.ne_of_lt h1)]
      exact h3
  · intro p hp c hcmem
    rcases hmem p c hcmem with hold | ⟨hpp, hcl⟩
    · have hplt : p < len := childrenOf_valid_slot t.nodes p c hold
      obtain ⟨hc1, hc2⟩ := h4 p (List.mem_range.mpr hplt) c hold
      exact ⟨by rw [hlen2]; exact Nat.lt_succ_of_lt hc1, hc2⟩
    · constructor
      · rw [hcl, hlen2]
        exact Nat.lt_succ_self len
      · rw [hpp, hcl]
        exact hpidlt
  · intro i hi hne
    have hilt : i < len + 1 := by rw [← hlen2]; exact List.mem_range.mp hi
    by_cases hil : i = len
    · refine ⟨pid, List.mem_range.mpr (by rw [hlen2]; exact Nat.lt_succ_of_lt hpidlt), ?_⟩
      rw [hil, hcpid]
      exact List.mem_append.mpr (Or.inr (by simp))
    · have hiltlen : i < len := by omega
      obtain ⟨p, hp, hip⟩ := h5 i (List.mem_range.mpr hiltlen) hne
      have hplt : p < len := List.mem_range.mp hp
      refine ⟨p, List.mem_range.mpr (by rw [hlen2]; exact Nat.lt_succ_of_lt hplt), ?_⟩
      by_cases hppid : p = pid
      · rw [hppid, hcpid]
        refine List.mem_append.mpr (Or.inl ?_)
        rw [← hchildt, ← hppid]
        exact hip
      · rw [hco p hppid (Nat.ne_of_lt hplt)]
        exact hip
  · intro p hp q hq i hip hiq
    rcases hmem p i hip with holdp | ⟨hpp, hil⟩
    · rcases hmem q i hiq with holdq | ⟨hqq, hil⟩
      · have hplt := childrenOf_valid_slot t.nodes p i holdp
        have hqlt := childrenOf_valid_slot t.nodes q i holdq
        exact h6 p (List.mem_range.mpr hplt) q (List.mem_range.mpr hqlt) i holdp holdq
      · have hplt := childrenOf_valid_slot t.nodes p i holdp
        have := (h4 p (List.mem_range.mpr hplt) i holdp).1
        rw [hil] at this
        exact absurd this (lt_irrefl len)
    · rcases hmem q i hiq with holdq | ⟨hqq, hil2⟩
      · have hqlt := childrenOf_valid_slot t.nodes q i holdq
        have := (h4 q (List.mem_range.mpr hqlt) i holdq).1
        rw [hil] at this
        exact absurd this (lt_irrefl len)
      · rw [hpp, hqq]
  · intro p hp
    by_cases hppid : p = pid
    · rw [hppid, hcpid]
      have hnodup := h7 pid (List.mem_range.mpr hpidlt)
      rw [hchildt] at hnodup
      have hnotmem : len ∉ pnode.children := by
        intro hmem2
        have := (h4 pid (List.mem_range.mpr hpidlt) len (hchildt ▸ hmem2)).1
        exact absurd this (lt_irrefl len)
      simp [List.nodup_append, hnodup, hnotmem]
    · by_cases hplen : p = len
      · rw [hplen, hclen]
        exact List.nodup_nil
      · rw [hco p hppid hplen]
        by_cases hplt : p < len
        · exact h7 p (List.mem_range.mpr hplt)
        · unfold childrenOf
          rw [List.getElem?_eq_none (Nat.le_of_not_lt hplt)]
          simp
  · intro p hp i hip
    rcases hmem p i hip with hold | ⟨hpp, hil⟩
    · have hplt := childrenOf_valid_slot t.nodes p i hold
      have hparent := h8 p (List.mem_range.mpr hplt) i hold
      have hilt : i < len := (h4 p (List.mem_range.mpr hplt) i hold).1
      rw [create_parent_preserved t nf mv pid pnode hpn i hilt]
      exact hparent
    · rw [hil, hpp, hglen]
      rfl
  · intro p hp
    by_cases hppid : p = pid
    · rw [hppid, hcpid, List.map_append]
      have hcongr : pnode.children.map (fun c => N2[c]?.map (fun x => x.move)) =
          pnode.children.map (fun c => t.nodes[c]?.map (fun x => x.move)) := by
        apply List.map_congr_left
        intro c hcmem
        have hclt : c < len := (h4 pid (List.mem_range.mpr hpidlt) c (hchildt ▸ hcmem)).1
        exact create_move_preserved t nf mv pid pnode hpn c hclt
      have hsing : ([len].map (fun c => N2[c]?.map (fun x => x.move))) = [some mv] := by
        rw [List.map_singleton, hglen]
        rfl
      rw [hsing, hcongr]
      have hnodup := h9 pid (List.mem_range.mpr hpidlt)
      rw [hchildt] at hnodup
      have hnomv : some mv ∉ pnode.children.map (fun c => t.nodes[c]?.map (fun x => x.move)) := by
        intro hmem2
        obtain ⟨c, hcmem, hceq⟩ := List.mem_map.mp hmem2
        have hnone := List.find?_eq_none.mp hc c hcmem
        simp only [decide_eq_true_eq] at hnone
        exact hnone hceq
      simp [List.nodup_append, hnodup, hnomv]
    · by_cases hplen : p = len
      · rw [hplen, hclen]
        simp
      · rw [hco p hppid hplen]
        by_cases hplt : p < len
        · have hcongr : (childrenOf t.nodes p).map (fun c => N2[c]?.map (fun x => x.move)) =
              (childrenOf t.nodes p).map (fun c => t.nodes[c]?.map (fun x => x.move)) := by
            apply List.map_congr_left
            intro c hcmem
            have hclt : c < len := (h4 p (List.mem_range.mpr hplt) c hcmem).1
            exact create_move_preserved t nf mv pid pnode hpn c hclt
          rw [hcongr]
          exact h9 p (List.mem_range.mpr hplt)
        · unfold childrenOf
          rw [List.getElem?_eq_none (Nat.le_of_not_lt hplt)]
          simp

/-- `addMove` preserves the structural invariant (all branches). -/
theorem WF_addMove (t : RTree) (pf nf mv : String) (h : WF t) :
    WF (addMove t pf nf mv).tree := by
  cases hmp : mapGet t.nodeMap pf with
  | none =>
    rw [addMove_unknown_parent t pf nf mv hmp]
    exact h
  | some pid =>
    cases hpn : t.nodes[pid]? with
    | none =>
      rw [addMove_dangling t pf nf mv pid hmp hpn]
      exact h
    | some pnode =>
      cases hc : findChildIn t.nodes pnode mv with
      | some cid =>
        have he := addMove_existing t pf nf mv pid cid pnode hmp hpn hc
        have htree : (addMove t pf nf mv).tree = t := by rw [he]; split <;> rfl
        rw [htree]
        exact h
      | none =>
        rw [addMove_create t pf nf mv pid pnode hmp hpn hc]
        exact WF_create t nf mv pid pnode ⟨h.1, h.2⟩ hpn hc

/-- Every tree reachable by `addMove` calls from a fresh tree satisfies the
structural invariant. -/
theorem built_WF (t : RTree) (h : Built t) : WF t := by
  induction h with
  | fresh f => exact WF_newTree f
  | step t pf nf mv n hb hn ih => exact WF_addMove t pf nf mv ih

/-! ## C6: sibling move-label uniqueness -/

/-- Counterexample to C6 as stated: deserializing the record list
`[root "R"; ("A","x",parent "R"); ("B","x",parent "R")]` succeeds and
yields a tree whose root has two children both labelled `"x"` — the
linking pass only skips a record when an existing sibling matches on the
*(fen, move) pair* (line 218), so two records with the same parent and move
but different FENs are both attached. -/
theorem deserialize_breaks_sibling_uniqueness :
    deserialize
        (.arr [⟨"R", "root", "", [], none, none⟩,
               ⟨"A", "x", "", [], some "R", some "root"⟩,
               ⟨"B", "x", "", [], some "R", some "root"⟩]) "R" =
      .ok ⟨[⟨"R", "root", none, [1, 2], "", []⟩,
            ⟨"A", "x", some 0, [], "", []⟩,
            ⟨"B", "x", some 0, [], "", []⟩],
           [("B", 2), ("A", 1), ("R", 0)]⟩ ∧
    ¬ siblingMovesUnique
        [⟨"R", "root", none, [1, 2], "", []⟩,
         ⟨"A", "x", some 0, [], "", []⟩,
         ⟨"B", "x", some 0, [], "", []⟩] := by
  constructor
  · rfl
  · decide

/-- C6 as amended: after any finite sequence of `addMove` calls on a fresh
tree, no node has two children sharing a move label.  (`deserialize` does
*not* preserve this for arbitrary inputs — see the counterexample.) -/
theorem built_sibling_moves_unique (t : RTree) (h : Built t) :
    siblingMovesUnique t.nodes :=
  (built_WF t h).2.2.2.2.2.2.2.2

/-- Witness for the amended C6: the two-insertion tree
`e4` then `e5` under the same parent is `Built`, and its sibling labels are
unique. -/
theorem built_sibling_moves_unique_witness :
    siblingMovesUnique
      (addMove (addMove (newTree "K0") "K0" "K1" "e4").tree "K0" "K2" "e5").tree.nodes :=
  built_sibling_moves_unique _
    (Built.step _ "K0" "K2" "e5" 2
      (Built.step _ "K0" "K1" "e4" 1 (Built.fresh "K0") rfl) rfl)

/-! ## C7: the serializer's dedup key -/

/-- The concatenated dedup string determines the `(fen, move)` pair among
the tree's nodes (no "underscore ambiguity"). -/
def concatInj (nodes : List RNode) : Prop :=
  ∀ n1 ∈ nodes, ∀ n2 ∈ nodes,
    concatKey n1 = concatKey n2 → n1.fen = n2.fen ∧ n1.move = n2.move

instance (nodes : List RNode) : Decidable (concatInj nodes) := by
  unfold concatInj
  infer_instance

/-- With an unambiguous dedup string, the code's loop (visited set of
concatenated strings) runs in lockstep with the loop as the specification
words it (visited set of pairs). -/
theorem serLoop_eq_specSerLoop (nodes : List RNode) (hinj : concatInj nodes) :
    ∀ (fuel : Nat) (q : List Nat) (pairs : List (String × String)),
      (∀ e ∈ pairs, ∃ n ∈ nodes, n.fen = e.1 ∧ n.move = e.2) →
      serLoop nodes fuel q (pairs.map (fun e => e.1 ++ "_" ++ e.2)) =
        specSerLoop nodes fuel q pairs := by
  intro fuel
  induction fuel with
  | zero => intro q pairs hpairs; rfl
  | succ fuel ih =>
    intro q pairs hpairs
    cases q with
    | nil => rfl
    | cons i q =>
      unfold serLoop specSerLoop
      cases hni : nodes[i]? with
      | none => exact ih q pairs hpairs
      | some n =>
        dsimp only
        have hmemiff : (concatKey n ∈ pairs.map (fun e => e.1 ++ "_" ++ e.2)) ↔
            ((n.fen, n.move) ∈ pairs) := by
          constructor
          · intro hm
            obtain ⟨e, he, heq⟩ := List.mem_map.mp hm
            obtain ⟨n2, hn2, hf, hm2⟩ := hpairs e he
            have hckey : concatKey n = concatKey n2 := by
              rw [← heq]
              unfold concatKey
              rw [hf, hm2]
            obtain ⟨hfe, hmv⟩ := hinj n (List.getElem?_mem hni) n2 hn2 hckey
            have hpair : (n.fen, n.move) = e := by
              rw [hfe, hmv, hf, hm2]
            rw [hpair]
            exact he
          · intro hm
            exact List.mem_map.mpr ⟨(n.fen, n.move), hm, rfl⟩
        by_cases hvis : (n.fen, n.move) ∈ pairs
        · rw [if_pos (hmemiff.mpr hvis), if_pos hvis]
          exact ih q pairs hpairs
        · rw [if_neg (fun hmm => hvis (hmemiff.mp hmm)), if_neg hvis]
          have hpairs2 : ∀ e ∈ ((n.fen, n.move) :: pairs),
              ∃ n2 ∈ nodes, n2.fen = e.1 ∧ n2.move = e.2 := by
            intro e he
            rcases List.mem_cons.mp he with rfl | he2
            · exact ⟨n, List.getElem?_mem hni, rfl, rfl⟩
            · exact hpairs e he2
          have := ih (q ++ n.children) ((n.fen, n.move) :: pairs) hpairs2
          rw [List.map_cons] at this
          rw [← this]
          rfl

/-- Counterexample to C7 as stated: the tree built by
`addMove("r","a_b","c")` then `addMove("r","a","b_c")` has three nodes with
three pairwise-distinct `(fen, move)` pairs, yet `serialize` emits only two
records — the node `("a","b_c")` is dropped because its dedup string
`"a_b_c"` collides with that of `("a_b","c")`.  So the dedup key is the
concatenated string, not the pair, and a node with a distinct pair can fail
to be emitted at all. -/
theorem serialize_dedup_key_collision :
    (addMove (addMove (newTree "r") "r" "a_b" "c").tree "r" "a" "b_c").tree.nodes.length = 3 ∧
    ((addMove (addMove (newTree "r") "r" "a_b" "c").tree "r" "a" "b_c").tree.nodes.map
        (fun n => (n.fen, n.move))).Nodup ∧
    (serializeRecords
        (addMove (addMove (newTree "r") "r" "a_b" "c").tree "r" "a" "b_c").tree).length = 2 ∧
    serializeRecords (addMove (addMove (newTree "r") "r" "a_b" "c").tree "r" "a" "b_c").tree ≠
      specSerializeRecords
        (addMove (addMove (newTree "r") "r" "a_b" "c").tree "r" "a" "b_c").tree := by
  exact ⟨rfl, by decide, rfl, by decide⟩

/-- C7 as amended: `serialize` emits records in breadth-first order from
the root, each record carrying the node's key, move, comment, labels and
the parent's own `(fen, move)` pair (`null` for the root) — but
deduplicated by the *concatenated string* `fen + "_" + move`, not by the
pair.  Whenever that string determines the pair across the tree's nodes
(no underscore ambiguity), the code's walk coincides exactly, step by
step, with the walk the specification describes (visited set of pairs). -/
theorem serialize_eq_spec_of_concatInj (t : RTree) (h : concatInj t.nodes) :
    serializeRecords t = specSerializeRecords t :=
  serLoop_eq_specSerLoop t.nodes h (t.nodes.length + 1) [0] [] (by intro e he; cases he)

/-- Witness for the amended C7 at the spec's own concrete scenario tree. -/
theorem serialize_eq_spec_of_concatInj_witness :
    serializeRecords
        (addMove (addMove (newTree "K0") "K0" "K1" "e4").tree "K1" "K2" "c5").tree =
      specSerializeRecords
        (addMove (addMove (newTree "K0") "K0" "K1" "e4").tree "K1" "K2" "c5").tree :=
  serialize_eq_spec_of_concatInj _ (by decide)

/-! ## Serialize: soundness and completeness of the emitted record list -/

/-- Every record `serialize` emits is the record of some node in the arena. -/
theorem serLoop_sound (nodes : List RNode) :
    ∀ (fuel : Nat) (q : List Nat) (vis : List String) (r : SRec),
      r ∈ serLoop nodes fuel q vis →
        ∃ (i : Nat) (n : RNode), nodes[i]? = some n ∧ r = recOf nodes n := by
  intro fuel
  induction fuel with
  | zero => intro q vis r hr; cases hr
  | succ fuel ih =>
    intro q vis r hr
    cases q with
    | nil => cases hr
    | cons i q =>
      unfold serLoop at hr
      cases hni : nodes[i]? with
      | none =>
        rw [hni] at hr
        exact ih q vis r hr
      | some n =>
        rw [hni] at hr
        dsimp only at hr
        by_cases hvis : concatKey n ∈ vis
        · rw [if_pos hvis] at hr
          exact ih q vis r hr
        · rw [if_neg hvis] at hr
          rcases List.mem_cons.mp hr with rfl | hr2
          · exact ⟨i, n, hni, rfl⟩
          · exact ih _ _ r hr2

/-- Counting bound: with valid, forward-pointing, duplicate-free and
pairwise-disjoint children lists, the total number of child references is
at most `nodes.length - 1`. -/
theorem children_total_le (nodes : List RNode)
    (h4 : ∀ p ∈ List.range nodes.length, ∀ c ∈ childrenOf nodes p,
      c < nodes.length ∧ p < c)
    (h6 : ∀ p ∈ List.range nodes.length, ∀ q ∈ List.range nodes.length,
      ∀ i, i ∈ childrenOf nodes p → i ∈ childrenOf nodes q → p = q)
    (h7 : ∀ p ∈ List.range nodes.length, (childrenOf nodes p).Nodup) :
    (((List.range nodes.length).map (fun p => childrenOf nodes p)).map List.length).sum ≤
      nodes.length - 1 := by
  set L := (List.range nodes.length).map (fun p => childrenOf nodes p) with hL
  have hnodup : L.flatten.Nodup := by
    rw [List.nodup_flatten]
    constructor
    · intro s hs
      obtain ⟨p, hp, rfl⟩ := List.mem_map.mp hs
      exact h7 p hp
    · rw [hL, List.pairwise_map]
      have hlt := List.pairwise_lt_range nodes.length
      refine hlt.imp_of_mem ?_
      intro p q hp hq hpq i hip hiq
      exact absurd (h6 p hp q hq i hip hiq) (Nat.ne_of_lt hpq)
  have hsub : L.flatten ⊆ List.range' 1 (nodes.length - 1) := by
    intro c hc
    obtain ⟨s, hs, hcs⟩ := List.mem_flatten.mp hc
    obtain ⟨p, hp, rfl⟩ := List.mem_map.mp hs
    obtain ⟨hc1, hc2⟩ := h4 p hp c hcs
    rw [List.mem_range'_1]
    omega
  have hlen := (List.subperm_of_subset hnodup hsub).length_le
  rw [List.length_flatten] at hlen
  have : (List.range' 1 (nodes.length - 1)).length = nodes.length - 1 := by
    simp [List.length_range']
  rw [this] at hlen
  exact hlen

/-- Fuel weight of the pending (not yet emitted) nodes. -/
def wtSum (nodes : List RNode) (done : List Nat) : Nat :=
  ((List.range nodes.length).map
    (fun j => if j ∈ done then 0 else (childrenOf nodes j).length)).sum

theorem sum_ite_cons (l : List Nat) (hl : l.Nodup) (i : Nat) (hi : i ∈ l)
    (done : List Nat) (hnd : i ∉ done) (w : Nat → Nat) :
    (l.map (fun j => if j ∈ i :: done then 0 else w j)).sum + w i =
      (l.map (fun j => if j ∈ done then 0 else w j)).sum := by
  induction l with
  | nil => cases hi
  | cons a l ih =>
    by_cases hai : a = i
    · have hnotl : a ∉ l := (List.nodup_cons.mp hl).1
      have htails : l.map (fun j => if j ∈ i :: done then 0 else w j) =
          l.map (fun j => if j ∈ done then 0 else w j) := by
        apply List.map_congr_left
        intro j hj
        have hja : j ≠ i := fun he => hnotl (by rw [hai]; exact he ▸ hj)
        simp [List.mem_cons, hja]
      rw [List.map_cons, List.map_cons, htails, hai, List.sum_cons, List.sum_cons]
      rw [if_pos (List.mem_cons_self i done), if_neg hnd]
      omega
    · have hal : i ∈ l := by
        rcases List.mem_cons.mp hi with h1 | h2
        · exact absurd h1.symm hai
        · exact h2
      have hhead : (a ∈ i :: done) ↔ (a ∈ done) := by simp [List.mem_cons, hai]
      rw [List.map_cons, List.map_cons, List.sum_cons, List.sum_cons]
      have ihh := ih (List.nodup_cons.mp hl).2 hal
      by_cases had : a ∈ done
      · rw [if_pos (hhead.mpr had), if_pos had]
        omega
      · rw [if_neg (fun hm => had (hhead.mp hm)), if_neg had]
        omega

theorem wtSum_cons (nodes : List RNode) (done : List Nat) (i : Nat)
    (hi : i < nodes.length) (hnd : i ∉ done) :
    wtSum nodes (i :: done) + (childrenOf nodes i).length = wtSum nodes done :=
  sum_ite_cons (List.range nodes.length) (List.nodup_range nodes.length) i
    (List.mem_range.mpr hi) done hnd (fun j => (childrenOf nodes j).length)

theorem lt_of_getElem?_eq_some {α : Type} (l : List α) (i : Nat) (a : α)
    (h : l[i]? = some a) : i < l.length := by
  by_contra hge
  rw [List.getElem?_eq_none (Nat.le_of_not_lt hge)] at h
  exact Option.noConfusion h

/-- The visited string a dequeued slot contributes. -/
def cKey (nodes : List RNode) (d : Nat) : String :=
  (nodes[d]?.map concatKey).getD ""

theorem cKey_mem_iff (nodes : List RNode) (hconcat : (nodes.map concatKey).Nodup)
    (done : List Nat) (hB : ∀ j ∈ done, j < nodes.length)
    (i : Nat) (n : RNode) (hni : nodes[i]? = some n) :
    (concatKey n ∈ done.map (cKey nodes)) ↔ i ∈ done := by
  constructor
  · intro hm
    obtain ⟨d, hd, hde⟩ := List.mem_map.mp hm
    have hdlt := hB d hd
    obtain ⟨nd, hnd⟩ : ∃ nd, nodes[d]? = some nd := ⟨_, List.getElem?_eq_getElem hdlt⟩
    have hck : cKey nodes d = concatKey nd := by
      unfold cKey
      rw [hnd]
      rfl
    rw [hck] at hde
    have hilt : i < nodes.length := lt_of_getElem?_eq_some _ _ _ hni
    have h1 : (nodes.map concatKey)[i]? = some (concatKey n) := by
      rw [List.getElem?_map, hni]
      rfl
    have h2 : (nodes.map concatKey)[d]? = some (concatKey nd) := by
      rw [List.getElem?_map, hnd]
      rfl
    have hieq : i = d := by
      apply List.getElem?_inj (by simpa using hilt) hconcat
      rw [h1, h2, hde]
    rw [hieq]
    exact hd
  · intro hm
    refine List.mem_map.mpr ⟨i, hm, ?_⟩
    unfold cKey
    rw [hni]
    rfl

/-- Completeness of the serializer walk: starting from a state whose queue
and visited set satisfy the breadth-first invariant, every not-yet-emitted
node's record appears in the output (fuel permitting). -/
theorem serLoop_complete (nodes : List RNode)
    (hconcat : (nodes.map concatKey).Nodup)
    (h4 : ∀ p ∈ List.range nodes.length, ∀ c ∈ childrenOf nodes p,
      c < nodes.length ∧ p < c)
    (h5 : ∀ i ∈ List.range nodes.length, i ≠ 0 →
      ∃ p ∈ List.range nodes.length, i ∈ childrenOf nodes p)
    (h6 : ∀ p ∈ List.range nodes.length, ∀ q ∈ List.range nodes.length,
      ∀ i, i ∈ childrenOf nodes p → i ∈ childrenOf nodes q → p = q)
    (h7 : ∀ p ∈ List.range nodes.length, (childrenOf nodes p).Nodup) :
    ∀ (fuel : Nat) (q done : List Nat),
      (∀ j ∈ q, j < nodes.length ∧ j ∉ done) →
      (∀ j ∈ done, j < nodes.length) →
      q.Nodup →
      (∀ j, j < nodes.length →
        ((j ∈ q ∨ j ∈ done) ↔ (j = 0 ∨ ∃ p, p ∈ done ∧ j ∈ childrenOf nodes p))) →
      1 + q.length + wtSum nodes done ≤ fuel →
      ∀ j n, nodes[j]? = some n → j ∉ done →
        recOf nodes n ∈ serLoop nodes fuel q (done.map (cKey nodes)) := by
  intro fuel
  induction fuel with
  | zero =>
    intro q done hA hB hC hE hF
    exact absurd hF (by omega)
  | succ fuel ih =>
    intro q done hA hB hC hE hF j n hjn hjd
    cases q with
    | nil =>
      have hjlt : j < nodes.length := lt_of_getElem?_eq_some _ _ _ hjn
      have hall : ∀ k, k < nodes.length → k ∈ done := by
        intro k
        induction k using Nat.strong_induction_on with
        | _ k ihk =>
          intro hklen
          by_contra hknd
          have he := hE k hklen
          have hrhs : ¬ (k = 0 ∨ ∃ p, p ∈ done ∧ k ∈ childrenOf nodes p) := by
            intro hr
            rcases he.mpr hr with hq | hd
            · cases hq
            · exact hknd hd
          have hk0 : k ≠ 0 := fun h0 => hrhs (Or.inl h0)
          obtain ⟨p, hp, hkp⟩ := h5 k (List.mem_range.mpr hklen) hk0
          have hplt : p < nodes.length := List.mem_range.mp hp
          have hpnd : p ∉ done := fun hpd => hrhs (Or.inr ⟨p, hpd, hkp⟩)
          exact hpnd (ihk p (h4 p hp k hkp).2 hplt)
      exact absurd (hall j hjlt) hjd
    | cons i rest =>
      obtain ⟨hilt, hind⟩ := hA i (List.mem_cons_self i rest)
      obtain ⟨ni, hni⟩ : ∃ ni, nodes[i]? = some ni := ⟨_, List.getElem?_eq_getElem hilt⟩
      have hchld : childrenOf nodes i = ni.children := by
        unfold childrenOf
        rw [hni]
        rfl
      unfold serLoop
      rw [hni]
      dsimp only
      have hnotvis : ¬ (concatKey ni ∈ done.map (cKey nodes)) := fun hm =>
        hind ((cKey_mem_iff nodes hconcat done hB i ni hni).mp hm)
      rw [if_neg hnotvis]
      have hckeyi : concatKey ni :: done.map (cKey nodes) = (i :: done).map (cKey nodes) := by
        rw [List.map_cons]
        congr 1
        unfold cKey
        rw [hni]
        rfl
      rw [hckeyi]
      by_cases hji : j = i
      · have hnni : n = ni := by
          rw [hji, hni] at hjn
          exact (Option.some.inj hjn).symm
        rw [hnni]
        exact List.mem_cons_self _ _
      · refine List.mem_cons_of_mem _ (ih (rest ++ ni.children) (i :: done) ?_ ?_ ?_ ?_ ?_ j n hjn ?_)
        · intro k hk
          rcases List.mem_append.mp hk with hkr | hkc
          · obtain ⟨hk1, hk2⟩ := hA k (List.mem_cons_of_mem _ hkr)
            refine ⟨hk1, ?_⟩
            intro hm
            rcases List.mem_cons.mp hm with hki | hkd
            · exact (List.nodup_cons.mp hC).1 (hki ▸ hkr)
            · exact hk2 hkd
          · have hkch : k ∈ childrenOf nodes i := hchld ▸ hkc
            obtain ⟨hk1, hk2⟩ := h4 i (List.mem_range.mpr hilt) k hkch
            refine ⟨hk1, ?_⟩
            intro hm
            rcases List.mem_cons.mp hm with hki | hkd
            · rw [hki] at hk2
              exact absurd hk2 (lt_irrefl i)
            · have := (hE k hk1).mp (Or.inr hkd)
              rcases this with hk0 | ⟨p, hpd, hkp⟩
              · rw [hk0] at hk2
                exact absurd hk2 (Nat.not_lt_zero i)
              · have hpi : p = i :=
                  h6 p (List.mem_range.mpr (childrenOf_valid_slot nodes p k hkp)) i
                    (List.mem_range.mpr hilt) k hkp hkch
                exact hind (hpi ▸ hpd)
        · intro k hk
          rcases List.mem_cons.mp hk with hki | hkd
          · rw [hki]
            exact hilt
          · exact hB k hkd
        · refine ((List.nodup_cons.mp hC).2).append (hchld ▸ h7 i (List.mem_range.mpr hilt)) ?_
          intro k hkr hkc
          have hkch : k ∈ childrenOf nodes i := hchld ▸ hkc
          have hk1 : k < nodes.length := (h4 i (List.mem_range.mpr hilt) k hkch).1
          have := (hE k hk1).mp (Or.inl (List.mem_cons_of_mem _ hkr))
          rcases this with hk0 | ⟨p, hpd, hkp⟩
          · rw [hk0] at hkch
            exact absurd (h4 i (List.mem_range.mpr hilt) 0 hkch).2 (Nat.not_lt_zero i)
          · have hpi : p = i :=
              h6 p (List.mem_range.mpr (childrenOf_valid_slot nodes p k hkp)) i
                (List.mem_range.mpr hilt) k hkp hkch
            exact hind (hpi ▸ hpd)
        · intro k hklt
          have he := hE k hklt
          have htrans : (k ∈ i :: rest ∨ k ∈ done) → (k ∈ rest ++ ni.children ∨ k ∈ i :: done) := by
            intro h
            rcases h with hq | hd
            · rcases List.mem_cons.mp hq with hki | hkr
              · exact Or.inr (List.mem_cons.mpr (Or.inl hki))
              · exact Or.inl (List.mem_append.mpr (Or.inl hkr))
            · exact Or.inr (List.mem_cons_of_mem _ hd)
          constructor
          · intro h
            rcases h with hq | hd
            · rcases List.mem_append.mp hq with hkr | hkc
              · rcases he.mp (Or.inl (List.mem_cons_of_mem _ hkr)) with hk0 | ⟨p, hpd, hkp⟩
                · exact Or.inl hk0
                · exact Or.inr ⟨p, List.mem_cons_of_mem _ hpd, hkp⟩
              · exact Or.inr ⟨i, List.mem_cons_self _ _, hchld ▸ hkc⟩
            · rcases List.mem_cons.mp hd with hki | hkd
              · rcases he.mp (Or.inl (List.mem_cons.mpr (Or.inl hki))) with hk0 | ⟨p, hpd, hkp⟩
                · exact Or.inl hk0
                · exact Or.inr ⟨p, List.mem_cons_of_mem _ hpd, hkp⟩
              · rcases he.mp (Or.inr hkd) with hk0 | ⟨p, hpd, hkp⟩
                · exact Or.inl hk0
                · exact Or.inr ⟨p, List.mem_cons_of_mem _ hpd, hkp⟩
          · intro h
            rcases h with hk0 | ⟨p, hpd, hkp⟩
            · exact htrans (he.mpr (Or.inl hk0))
            · rcases List.mem_cons.mp hpd with hpi | hpdone
              · exact Or.inl (List.mem_append.mpr (Or.inr (by rw [← hchld, ← hpi]; exact hkp)))
              · exact htrans (he.mpr (Or.inr ⟨p, hpdone, hkp⟩))
        · have hw := wtSum_cons nodes done i hilt hind
          have hlen : (rest ++ ni.children).length = rest.length + ni.children.length :=
            List.length_append rest ni.children
          have hchlen : (childrenOf nodes i).length = ni.children.length := by rw [hchld]
          simp only [List.length_cons] at hF
          omega
        · intro hm
          rcases List.mem_cons.mp hm with hki | hkd
          · exact hji hki
          · exact hjd hkd

theorem serializeRecords_sound (t : RTree) (r : SRec) (hr : r ∈ serializeRecords t) :
    ∃ (i : Nat) (n : RNode), t.nodes[i]? = some n ∧ r = recOf t.nodes n :=
  serLoop_sound t.nodes _ _ _ r hr

theorem serializeRecords_complete (t : RTree) (hW : WF t)
    (hconcat : (t.nodes.map concatKey).Nodup) :
    ∀ (j : Nat) (n : RNode), t.nodes[j]? = some n → recOf t.nodes n ∈ serializeRecords t := by
  intro j n hjn
  obtain ⟨h1, h2, h3, h4, h5, h6, h7, h8, h9⟩ := hW
  refine serLoop_complete t.nodes hconcat h4 h5 h6 h7 (t.nodes.length + 1) [0] []
    ?_ ?_ ?_ ?_ ?_ j n hjn (by simp)
  · intro k hk
    have hk0 : k = 0 := by simpa using hk
    rw [hk0]
    exact ⟨h1, by simp⟩
  · intro k hk
    cases hk
  · exact List.nodup_singleton 0
  · intro k hklt
    simp
  · have hsum := children_total_le t.nodes h4 h6 h7
    have hws : wtSum t.nodes [] =
        (((List.range t.nodes.length).map (fun p => childrenOf t.nodes p)).map List.length).sum := by
      unfold wtSum
      rw [List.map_map]
      rfl
    rw [List.length_singleton, hws]
    omega

theorem fen_getElem_inj (nodes : List RNode) (hfens : (nodes.map (fun n => n.fen)).Nodup)
    (i j : Nat) (ni nj : RNode) (hi : nodes[i]? = some ni) (hj : nodes[j]? = some nj)
    (he : ni.fen = nj.fen) : i = j := by
  have h1 : (nodes.map (fun n => n.fen))[i]? = (nodes.map (fun n => n.fen))[j]? := by
    rw [List.getElem?_map, List.getElem?_map, hi, hj]
    simpa using he
  exact List.getElem?_inj (by simpa using lt_of_getElem?_eq_some _ _ _ hi) hfens h1

theorem jsOrElse_empty (c : String) : jsOrElse c "" = c := by
  unfold jsOrElse
  split
  · rename_i h
    rw [h]
  · rfl

/-- The materialized (unlinked) copy of a source node: same fen, move,
comment and labels, no parent, no children yet. -/
def mkNodeOf (n : RNode) : RNode :=
  ⟨n.fen, n.move, none, [], n.comment, n.labels⟩

/-- Generic first-hit lemma: when some member satisfies the predicate and
every satisfying member equals `a`, `find?` returns `a`. -/
theorem find?_eq_of_unique {α : Type} (l : List α) (p : α → Bool) (a : α)
    (hmem : a ∈ l) (hpa : p a = true) (huniq : ∀ x ∈ l, p x = true → x = a) :
    l.find? p = some a := by
  cases hf : l.find? p with
  | none =>
    have := List.find?_eq_none.mp hf a hmem
    rw [hpa] at this
    exact absurd rfl this
  | some y =>
    have h1 := List.find?_some hf
    have h2 := List.mem_of_find?_eq_some hf
    rw [huniq y h2 h1]

/-- The root-record lookup in `deserialize` finds exactly the root's
record. -/
theorem find_root_record (t : RTree) (hW : WF t)
    (hfens : (t.nodes.map (fun n => n.fen)).Nodup)
    (hconcat : (t.nodes.map concatKey).Nodup)
    (n0 : RNode) (h0 : t.nodes[0]? = some n0) :
    (serializeRecords t).find?
        (fun r => r.move = "root" ∧ r.fen = rootFenStr t) = some (recOf t.nodes n0) := by
  have hmove : n0.move = "root" := by
    have := hW.2.2.1
    rw [h0] at this
    simpa using this
  have hroot : rootFenStr t = n0.fen := by
    unfold rootFenStr
    rw [h0]
    rfl
  apply find?_eq_of_unique
  · exact serializeRecords_complete t hW hconcat 0 n0 h0
  · simp [recOf, hmove, hroot]
  · intro r hr hp
    obtain ⟨i, n, hni, rfl⟩ := serializeRecords_sound t r hr
    simp only [recOf, Bool.decide_and, Bool.and_eq_true, decide_eq_true_eq] at hp
    have hieq : i = 0 := fen_getElem_inj t.nodes hfens i 0 n n0 hni h0 (by rw [hp.2, hroot])
    rw [hieq] at hni
    rw [hni] at h0
    rw [Option.some.inj h0]

/-- Invariant of the node-materialization pass: `dom` lists the source
slots whose nodes exist in the state `u` under construction, `τ` maps each
of them to its slot in `u`; the temporary index binds exactly the FENs of
`dom`'s nodes, each to its materialized (still unlinked) copy. -/
structure MatInv (src : List RNode) (dom : List Nat) (τ : Nat → Nat) (u : RTree) : Prop where
  zero_dom : 0 ∈ dom
  dom_lt : ∀ i ∈ dom, i < src.length
  tau_zero : τ 0 = 0
  tau_lt : ∀ i ∈ dom, τ i < u.nodes.length
  tau_inj : ∀ i ∈ dom, ∀ j ∈ dom, τ i = τ j → i = j
  slot : ∀ i ∈ dom, ∀ n, src[i]? = some n →
    mapGet u.nodeMap n.fen = some (τ i) ∧ u.nodes[τ i]? = some (mkNodeOf n)
  keys : ∀ f, mapGet u.nodeMap f ≠ none →
    ∃ i ∈ dom, ∃ n, src[i]? = some n ∧ n.fen = f

theorem matStep_inv (src : List RNode) (hfens : (src.map (fun x => x.fen)).Nodup)
    (hmove : src[0]?.map (fun x => x.move) = some "root")
    (dom : List Nat) (τ : Nat → Nat) (u : RTree) (hinv : MatInv src dom τ u)
    (i : Nat) (n : RNode) (hni : src[i]? = some n) :
    ∃ dom' τ', MatInv src dom' τ' (matStep u (recOf src n)) ∧
      (∀ k ∈ dom, k ∈ dom') ∧ (∀ k ∈ dom, τ' k = τ k) ∧ i ∈ dom' := by
  obtain ⟨n0, h0⟩ : ∃ n0, src[0]? = some n0 :=
    ⟨_, List.getElem?_eq_getElem (hinv.dom_lt 0 hinv.zero_dom)⟩
  have hroot_u : u.nodes[0]? = some (mkNodeOf n0) := by
    have := (hinv.slot 0 hinv.zero_dom n0 h0).2
    rw [hinv.tau_zero] at this
    exact this
  have hrfs : rootFenStr u = n0.fen := by
    unfold rootFenStr
    rw [hroot_u]
    rfl
  have hmove0 : n0.move = "root" := by
    rw [h0] at hmove
    simpa using hmove
  by_cases hi0 : i = 0
  · -- the root record: only re-registers the root
    have hnn0 : n = n0 := by
      rw [hi0, h0] at hni
      exact (Option.some.inj hni).symm
    refine ⟨dom, τ, ?_, fun k hk => hk, fun k hk => rfl, hi0 ▸ hinv.zero_dom⟩
    have hcond : (recOf src n).fen = rootFenStr u ∧ (recOf src n).move = "root" := by
      rw [hrfs]
      exact ⟨by rw [hnn0]; rfl, by rw [hnn0]; exact hmove0⟩
    unfold matStep
    rw [if_pos hcond]
    refine ⟨hinv.zero_dom, hinv.dom_lt, hinv.tau_zero, hinv.tau_lt, hinv.tau_inj, ?_, ?_⟩
    · intro k hk nk hnk
      obtain ⟨hm1, hm2⟩ := hinv.slot k hk nk hnk
      constructor
      · by_cases hkf : nk.fen = (recOf src n).fen
        · have hk0 : k = 0 := fen_getElem_inj src hfens k 0 nk n0 hnk h0 (by
            rw [hkf]
            show n.fen = n0.fen
            rw [hnn0])
          rw [hkf, mapGet_set_self]
          rw [hk0, hinv.tau_zero]
        · rw [mapGet_set_ne _ _ _ _ hkf]
          exact hm1
      · exact hm2
    · intro f hf
      by_cases hff : f = (recOf src n).fen
      · exact ⟨0, hinv.zero_dom, n0, h0, by rw [hff]; show n0.fen = n.fen; rw [hnn0]⟩
      · rw [mapGet_set_ne _ _ _ _ hff] at hf
        exact hinv.keys f hf
  · -- a non-root record
    have hcond : ¬ ((recOf src n).fen = rootFenStr u ∧ (recOf src n).move = "root") := by
      intro hc
      have : n.fen = n0.fen := by
        have := hc.1
        rw [hrfs] at this
        exact this
      exact hi0 (fen_getElem_inj src hfens i 0 n n0 hni h0 this)
    cases hlook : mapGet u.nodeMap (recOf src n).fen with
    | some v =>
      -- already present: complete no-op; the key must be ours
      have hkeys := hinv.keys (recOf src n).fen (by rw [hlook]; exact fun h => Option.noConfusion h)
      obtain ⟨k, hk, nk, hnk, hkf⟩ := hkeys
      have hki : k = i := fen_getElem_inj src hfens k i nk n hnk hni hkf
      refine ⟨dom, τ, ?_, fun k hk => hk, fun k hk => rfl, hki ▸ hk⟩
      unfold matStep
      rw [if_neg hcond, if_neg (by rw [hlook]; exact fun h => Option.noConfusion h)]
      exact hinv
    | none =>
      -- fresh node
      have hidom : i ∉ dom := by
        intro hid
        have h2 := (hinv.slot i hid n hni).1
        have h3 : mapGet u.nodeMap n.fen = none := hlook
        rw [h2] at h3
        exact Option.noConfusion h3
      refine ⟨i :: dom, fun k => if k = i then u.nodes.length else τ k, ?_, ?_, ?_, ?_⟩
      · unfold matStep
        rw [if_neg hcond, if_pos hlook]
        have hnodes : u.nodes ++
            [(⟨(recOf src n).fen, (recOf src n).move, none, [],
               jsOrElse (recOf src n).comment "", (recOf src n).labels⟩ : RNode)] =
            u.nodes ++ [mkNodeOf n] := by
          unfold mkNodeOf recOf
          rw [jsOrElse_empty]
        refine ⟨List.mem_cons_of_mem _ hinv.zero_dom, ?_, ?_, ?_, ?_, ?_, ?_⟩
        · intro k hk
          rcases List.mem_cons.mp hk with rfl | hkd
          · exact lt_of_getElem?_eq_some _ _ _ hni
          · exact hinv.dom_lt k hkd
        · rw [if_neg (fun h => hi0 h.symm)]
          exact hinv.tau_zero
        · intro k hk
          rcases List.mem_cons.mp hk with rfl | hkd
          · simp
          · rw [if_neg (fun (he : k = i) => hidom (he ▸ hkd))]
            have := hinv.tau_lt k hkd
            simp only [List.length_append, List.length_cons, List.length_nil]
            omega
        · intro k hk l hl
          show (if k = i then u.nodes.length else τ k) =
              (if l = i then u.nodes.length else τ l) → k = l
          rcases List.mem_cons.mp hk with hki | hkd <;> rcases List.mem_cons.mp hl with hli | hld
          · intro h
            rw [hki, hli]
          · rw [if_pos hki, if_neg (fun (he : l = i) => hidom (he ▸ hld))]
            intro h
            have hlt := hinv.tau_lt l hld
            rw [← h] at hlt
            exact absurd hlt (lt_irrefl _)
          · rw [if_pos hli, if_neg (fun (he : k = i) => hidom (he ▸ hkd))]
            intro h
            have hlt := hinv.tau_lt k hkd
            rw [h] at hlt
            exact absurd hlt (lt_irrefl _)
          · rw [if_neg (fun (he : k = i) => hidom (he ▸ hkd)),
              if_neg (fun (he : l = i) => hidom (he ▸ hld))]
            exact hinv.tau_inj k hkd l hld
        · intro k hk nk hnk
          rcases List.mem_cons.mp hk with rfl | hkd
          · have hnnk : nk = n := by
              rw [hni] at hnk
              exact (Option.some.inj hnk).symm
            rw [if_pos rfl]
            constructor
            · rw [hnnk]
              show mapGet (mapSet u.nodeMap (recOf src n).fen u.nodes.length) n.fen = _
              exact mapGet_set_self _ _ _
            · show (u.nodes ++ _)[u.nodes.length]? = _
              rw [hnodes, List.getElem?_concat_length, hnnk]
          · have hkne : k ≠ i := fun (he : k = i) => hidom (he ▸ hkd)
            rw [if_neg hkne]
            obtain ⟨hm1, hm2⟩ := hinv.slot k hkd nk hnk
            constructor
            · have hfne : nk.fen ≠ (recOf src n).fen := by
                intro hfe
                exact hkne (fen_getElem_inj src hfens k i nk n hnk hni hfe)
              show mapGet (mapSet _ _ _) _ = _
              rw [mapGet_set_ne _ _ _ _ hfne]
              exact hm1
            · show (u.nodes ++ _)[τ k]? = _
              rw [List.getElem?_append_left (hinv.tau_lt k hkd)]
              exact hm2
        · intro f hf
          by_cases hff : f = (recOf src n).fen
          · exact ⟨i, List.mem_cons_self _ _, n, hni, hff.symm⟩
          · show ∃ k ∈ i :: dom, _
            rw [show mapGet (mapSet u.nodeMap (recOf src n).fen u.nodes.length) f =
                mapGet u.nodeMap f from mapGet_set_ne _ _ _ _ hff] at hf
            obtain ⟨k, hk, nk, hnk, hkf⟩ := hinv.keys f hf
            exact ⟨k, List.mem_cons_of_mem _ hk, nk, hnk, hkf⟩
      · exact fun k hk => List.mem_cons_of_mem _ hk
      · intro k hk
        show (if k = i then u.nodes.length else τ k) = τ k
        rw [if_neg (fun (he : k = i) => hidom (he ▸ hk))]
      · exact List.mem_cons_self _ _

theorem materialize_inv (src : List RNode) (hfens : (src.map (fun x => x.fen)).Nodup)
    (hmove : src[0]?.map (fun x => x.move) = some "root") :
    ∀ (rs : List SRec),
      (∀ r ∈ rs, ∃ (i : Nat) (n : RNode), src[i]? = some n ∧ r = recOf src n) →
      ∀ (dom : List Nat) (τ : Nat → Nat) (u : RTree), MatInv src dom τ u →
        ∃ dom' τ', MatInv src dom' τ' (materialize rs u) ∧
          (∀ k ∈ dom, k ∈ dom') ∧ (∀ k ∈ dom, τ' k = τ k) ∧
          (∀ r ∈ rs, ∀ (i : Nat) (n : RNode), src[i]? = some n → r = recOf src n →
            i ∈ dom') := by
  intro rs
  induction rs with
  | nil =>
    intro hrs dom τ u hinv
    exact ⟨dom, τ, hinv, fun k hk => hk, fun k hk => rfl, fun r hr => absurd hr (by simp)⟩
  | cons r rs ih =>
    intro hrs dom τ u hinv
    obtain ⟨i, n, hni, hrn⟩ := hrs r (List.mem_cons_self r rs)
    obtain ⟨dom1, τ1, hinv1, hmono1, hfix1, hi1⟩ :=
      matStep_inv src hfens hmove dom τ u hinv i n hni
    rw [← hrn] at hinv1
    obtain ⟨dom2, τ2, hinv2, hmono2, hfix2, hcov2⟩ :=
      ih (fun r2 hr2 => hrs r2 (List.mem_cons_of_mem _ hr2)) dom1 τ1 (matStep u r) hinv1
    refine ⟨dom2, τ2, hinv2, fun k hk => hmono2 k (hmono1 k hk), ?_, ?_⟩
    · intro k hk
      rw [hfix2 k (hmono1 k hk), hfix1 k hk]
    · intro r2 hr2 i2 n2 hni2 hrn2
      rcases List.mem_cons.mp hr2 with hr2r | hr2rs
    
      · have hfens_eq : n2.fen = n.fen := by
          have : recOf src n2 = recOf src n := by rw [← hrn2, ← hrn, hr2r]
          have hfe := congrArg SRec.fen this
          simpa [recOf] using hfe
        have : i2 = i := fen_getElem_inj src hfens i2 i n2 n hni2 hni hfens_eq
        rw [this]
        exact hmono2 i hi1
      · exact hcov2 r2 hr2rs i2 n2 hni2 hrn2

/-- Invariant of the linking pass: `A` lists the source slots already
attached to their parents; every materialized slot tracks its source
node's data, with parent pointer and children exactly as dictated by the
attached set (children in attachment order). -/
structure LinkInv (src : List RNode) (dom : List Nat) (τ : Nat → Nat)
    (A : List Nat) (w : RTree) : Prop where
  mapfacts : ∀ i ∈ dom, ∀ n, src[i]? = some n → mapGet w.nodeMap n.fen = some (τ i)
  A_sub : ∀ c ∈ A, c ∈ dom ∧ c ≠ 0
  slot : ∀ i ∈ dom, ∀ n, src[i]? = some n →
    ∃ wn, w.nodes[τ i]? = some wn ∧ wn.fen = n.fen ∧ wn.move = n.move ∧
      wn.comment = n.comment ∧ wn.labels = n.labels ∧
      wn.parent = (if i ∈ A then n.parent.map τ else none) ∧
      wn.children =
        (A.filter (fun c => (src[c]?.bind (fun x => x.parent)) = some i)).map τ

theorem linkStep_inv (src : List RNode)
    (hfens : (src.map (fun x => x.fen)).Nodup)
    (h2 : src[0]?.map (fun x => x.parent) = some none)
    (h4 : ∀ p ∈ List.range src.length, ∀ c ∈ childrenOf src p,
      c < src.length ∧ p < c)
    (h5 : ∀ i ∈ List.range src.length, i ≠ 0 →
      ∃ p ∈ List.range src.length, i ∈ childrenOf src p)
    (h8 : ∀ p ∈ List.range src.length, ∀ i ∈ childrenOf src p,
      src[i]?.map (fun x => x.parent) = some (some p))
    (dom : List Nat) (τ : Nat → Nat)
    (hdomAll : ∀ k, k < src.length → k ∈ dom)
    (htau_inj : ∀ k ∈ dom, ∀ l ∈ dom, τ k = τ l → k = l)
    (A : List Nat) (w : RTree) (hinv : LinkInv src dom τ A w)
    (j : Nat) (n : RNode) (hnj : src[j]? = some n) :
    ∃ A', LinkInv src dom τ A' (linkStep w (recOf src n)) ∧
      (∀ c ∈ A, c ∈ A') ∧ (j ≠ 0 → j ∈ A') := by
  have hjlt : j < src.length := lt_of_getElem?_eq_some _ _ _ hnj
  have hjdom : j ∈ dom := hdomAll j hjlt
  by_cases hj0 : j = 0
  · -- the root record has a null parent reference and is skipped
    have hpar : n.parent = none := by
      rw [hj0] at hnj
      rw [hnj] at h2
      simpa using h2
    have hpf : (recOf src n).parentFen = none := by
      show n.parent.bind _ = none
      rw [hpar]
      rfl
    refine ⟨A, ?_, fun c hc => hc, fun hne => absurd hj0 hne⟩
    unfold linkStep
    rw [hpf]
    exact hinv
  · -- a non-root record: resolve parent and child through the map
    obtain ⟨p, hp, hjp⟩ := h5 j (List.mem_range.mpr hjlt) hj0
    have hplt : p < src.length := List.mem_range.mp hp
    have hpdom : p ∈ dom := hdomAll p hplt
    have hparj : n.parent = some p := by
      have := h8 p hp j hjp
      rw [hnj] at this
      simpa using this
    have hpj : p < j := (h4 p hp j hjp).2
    obtain ⟨np, hnp⟩ : ∃ np, src[p]? = some np := ⟨_, List.getElem?_eq_getElem hplt⟩
    have hpf : (recOf src n).parentFen = some np.fen := by
      show n.parent.bind _ = _
      rw [hparj, Option.some_bind, hnp]
      rfl
    have hlook1 : mapGet w.nodeMap (recOf src n).fen = some (τ j) :=
      hinv.mapfacts j hjdom n hnj
    have hlook2 : mapGet w.nodeMap np.fen = some (τ p) :=
      hinv.mapfacts p hpdom np hnp
    obtain ⟨wj, hwj, hwjf, hwjm, hwjc, hwjl, hwjp, hwjch⟩ := hinv.slot j hjdom n hnj
    obtain ⟨wp, hwp, hwpf, hwpm, hwpc, hwpl, hwpp, hwpch⟩ := hinv.slot p hpdom np hnp
    have htpj : τ p ≠ τ j := fun he =>
      absurd (htau_inj p hpdom j hjdom he) (Nat.ne_of_lt hpj)
    unfold linkStep
    rw [hpf]
    dsimp only
    rw [hlook1, hlook2]
    dsimp only
    rw [hwj, hwp]
    dsimp only
    by_cases hjA : j ∈ A
    · -- already attached: the (fen, move) guard fires and nothing changes
      have hany : wp.children.any (fun c =>
          decide (w.nodes[c]?.map (fun x => x.fen) = some wj.fen) &&
          decide (w.nodes[c]?.map (fun x => x.move) = some wj.move)) = true := by
        refine List.any_eq_true.mpr ⟨τ j, ?_, ?_⟩
        · rw [hwpch]
          refine List.mem_map.mpr ⟨j, ?_, rfl⟩
          refine List.mem_filter.mpr ⟨hjA, ?_⟩
          simp only [hnj, Option.some_bind, hparj]
          simp
        · rw [hwj]
          simp
      rw [if_pos (by simpa using hany)]
      exact ⟨A, hinv, fun c hc => hc, fun _ => hjA⟩
    · -- not yet attached: the guard cannot fire (FENs are unique)
      have hany : ¬ (wp.children.any (fun c =>
          decide (w.nodes[c]?.map (fun x => x.fen) = some wj.fen) &&
          decide (w.nodes[c]?.map (fun x => x.move) = some wj.move)) = true) := by
        intro hany
        obtain ⟨c, hcmem, hcp⟩ := List.any_eq_true.mp hany
        rw [hwpch] at hcmem
        obtain ⟨c0, hc0f, rfl⟩ := List.mem_map.mp hcmem
        have hc0A : c0 ∈ A := (List.mem_filter.mp hc0f).1
        obtain ⟨hc0dom, hc0ne⟩ := hinv.A_sub c0 hc0A
        obtain ⟨nc0, hnc0⟩ : ∃ nc0, src[c0]? = some nc0 := by
          have hc0lt : c0 < src.length := by
            by_contra hge
            have : src[c0]? = none := List.getElem?_eq_none (Nat.le_of_not_lt hge)
            have hb := (List.mem_filter.mp hc0f).2
            rw [this] at hb
            simp at hb
          exact ⟨_, List.getElem?_eq_getElem hc0lt⟩
        obtain ⟨wc0, hwc0, hwc0f, _, _, _, _, _⟩ := hinv.slot c0 hc0dom nc0 hnc0
        simp only [Bool.and_eq_true, decide_eq_true_eq] at hcp
        rw [hwc0] at hcp
        have hfe : nc0.fen = n.fen := by
          have := hcp.1
          simp only [Option.map_some'] at this
          rw [hwc0f, hwjf] at this
          exact Option.some.inj this
        have : c0 = j := fen_getElem_inj src hfens c0 j nc0 n hnc0 hnj hfe
        exact hjA (this ▸ hc0A)
      rw [if_neg (by simpa using hany)]
      -- attach: update the child slot, then append to the parent's children
      refine ⟨A ++ [j], ?_, fun c hc => List.mem_append.mpr (Or.inl hc),
        fun _ => List.mem_append.mpr (Or.inr (List.mem_cons_self j []))⟩
      have hnodes1 : ∀ c : Nat, c ≠ τ j →
          (w.nodes.set (τ j) { wj with parent := some (τ p), move := (recOf src n).move })[c]? =
            w.nodes[c]? := fun c hc => List.getElem?_set_ne (Ne.symm hc)
      have hnodes1j :
          (w.nodes.set (τ j) { wj with parent := some (τ p), move := (recOf src n).move })[τ j]? =
            some { wj with parent := some (τ p), move := (recOf src n).move } :=
        List.getElem?_set_eq_of_lt _ (lt_of_getElem?_eq_some _ _ _ hwj)
      have hpnode1 :
          ((w.nodes.set (τ j) { wj with parent := some (τ p), move := (recOf src n).move })[τ p]?).getD
              wp = wp := by
        rw [hnodes1 (τ p) htpj, hwp]
        rfl
      rw [hpnode1]
      constructor
      · -- mapfacts: the map is untouched
        intro i hidom ni hni
        exact hinv.mapfacts i hidom ni hni
      · -- A_sub
        intro c hc
        rcases List.mem_append.mp hc with hca | hcj
        · exact hinv.A_sub c hca
        · have : c = j := by simpa using hcj
          rw [this]
          exact ⟨hjdom, hj0⟩
      · -- slot facts after the double update
        intro i hidom ni hni
        by_cases hij : i = j
        · -- the freshly attached child
          have hnij : ni = n := by
            rw [hij, hnj] at hni
            exact (Option.some.inj hni).symm
          refine ⟨{ wj with parent := some (τ p), move := (recOf src n).move }, ?_, ?_, ?_, ?_, ?_, ?_, ?_⟩
          · rw [hij, List.getElem?_set_ne htpj]
            exact hnodes1j
          · rw [hnij]
            exact hwjf
          · rw [hnij]
            rfl
          · rw [hnij]
            exact hwjc
          · rw [hnij]
            exact hwjl
          · rw [if_pos (List.mem_append.mpr (Or.inr (by rw [hij]; exact List.mem_cons_self j [])))]
            rw [hnij, hparj]
            rfl
          · have hfilter : (A ++ [j]).filter
                (fun c => (src[c]?.bind (fun x => x.parent)) = some i) =
                A.filter (fun c => (src[c]?.bind (fun x => x.parent)) = some i) := by
              rw [List.filter_append]
              have : [j].filter (fun c => (src[c]?.bind (fun x => x.parent)) = some i) = [] := by
                simp only [List.filter, hnj, Option.some_bind, hparj]
                rw [hij]
                have : ¬ ((some p : Option Nat) = some j) := by
                  intro he
                  exact absurd (Option.some.inj he) (Nat.ne_of_lt hpj)
                simp [this]
              rw [this, List.append_nil]
            rw [hfilter, hij]
            exact hwjch
        · by_cases hip : i = p
          · -- the parent: children got the new slot appended
            have hnip : ni = np := by
              rw [hip, hnp] at hni
              exact (Option.some.inj hni).symm
            have hslotp :
                ((w.nodes.set (τ j)
                    { wj with parent := some (τ p), move := (recOf src n).move }).set (τ p)
                  { wp with children := wp.children ++ [τ j] })[τ i]? =
                  some { wp with children := wp.children ++ [τ j] } := by
              rw [hip]
              refine List.getElem?_set_eq_of_lt _ ?_
              have := lt_of_getElem?_eq_some _ _ _ hwp
              simpa using this
            refine ⟨{ wp with children := wp.children ++ [τ j] }, hslotp, ?_, ?_, ?_, ?_, ?_, ?_⟩
            · rw [hnip]
              exact hwpf
            · rw [hnip]
              exact hwpm
            · rw [hnip]
              exact hwpc
            · rw [hnip]
              exact hwpl
            · have hiff : (i ∈ A ++ [j]) ↔ (i ∈ A) := by
                simp only [List.mem_append, List.mem_singleton]
                constructor
                · intro h
                  rcases h with h | h
                  · exact h
                  · exact absurd h hij
                · exact Or.inl
              by_cases hiA : i ∈ A
              · rw [if_pos (hiff.mpr hiA)]
                have hiA2 : p ∈ A := by rw [← hip]; exact hiA
                rw [if_pos hiA2] at hwpp
                rw [hnip]
                exact hwpp
              · rw [if_neg (fun h => hiA (hiff.mp h))]
                have hiA2 : p ∉ A := fun h => hiA (by rw [hip]; exact h)
                rw [if_neg hiA2] at hwpp
                exact hwpp
            · rw [List.filter_append]
              have hsing : [j].filter
                  (fun c => (src[c]?.bind (fun x => x.parent)) = some i) = [j] := by
                simp only [List.filter, hnj, Option.some_bind, hparj, hip]
                simp
              rw [hsing, List.map_append, hip, ← hwpch]
              rfl
          · -- any other slot is untouched
            obtain ⟨wi, hwi, hwif, hwim, hwic, hwil, hwip, hwich⟩ := hinv.slot i hidom ni hni
            have htij : τ i ≠ τ j := fun he => hij (htau_inj i hidom j hjdom he)
            have htip : τ i ≠ τ p := fun he => hip (htau_inj i hidom p hpdom he)
            refine ⟨wi, ?_, hwif, hwim, hwic, hwil, ?_, ?_⟩
            · rw [List.getElem?_set_ne (Ne.symm htip), hnodes1 (τ i) htij]
              exact hwi
            · have hiff : (i ∈ A ++ [j]) ↔ (i ∈ A) := by
                simp only [List.mem_append, List.mem_singleton]
                constructor
                · intro h
                  rcases h with h | h
                  · exact h
                  · exact absurd h hij
                · exact Or.inl
              by_cases hiA : i ∈ A
              · rw [if_pos (hiff.mpr hiA)]
                rw [if_pos hiA] at hwip
                exact hwip
              · rw [if_neg (fun h => hiA (hiff.mp h))]
                rw [if_neg hiA] at hwip
                exact hwip
            · rw [List.filter_append]
              have hsing : [j].filter
                  (fun c => (src[c]?.bind (fun x => x.parent)) = some i) = [] := by
                simp only [List.filter, hnj, Option.some_bind, hparj]
                have : ¬ ((some p : Option Nat) = some i) := by
                  intro he
                  exact hip (Option.some.inj he).symm
                simp [this]
              rw [hsing, List.append_nil]
              exact hwich

theorem link_inv (src : List RNode)
    (hfens : (src.map (fun x => x.fen)).Nodup)
    (h2 : src[0]?.map (fun x => x.parent) = some none)
    (h4 : ∀ p ∈ List.range src.length, ∀ c ∈ childrenOf src p,
      c < src.length ∧ p < c)
    (h5 : ∀ i ∈ List.range src.length, i ≠ 0 →
      ∃ p ∈ List.range src.length, i ∈ childrenOf src p)
    (h8 : ∀ p ∈ List.range src.length, ∀ i ∈ childrenOf src p,
      src[i]?.map (fun x => x.parent) = some (some p))
    (dom : List Nat) (τ : Nat → Nat)
    (hdomAll : ∀ k, k < src.length → k ∈ dom)
    (htau_inj : ∀ k ∈ dom, ∀ l ∈ dom, τ k = τ l → k = l) :
    ∀ (rs : List SRec),
      (∀ r ∈ rs, ∃ (i : Nat) (n : RNode), src[i]? = some n ∧ r = recOf src n) →
      ∀ (A : List Nat) (w : RTree), LinkInv src dom τ A w →
        ∃ A', LinkInv src dom τ A' (link rs w) ∧ (∀ c ∈ A, c ∈ A') ∧
          (∀ r ∈ rs, ∀ (j : Nat) (n : RNode), src[j]? = some n → r = recOf src n →
            j ≠ 0 → j ∈ A') := by
  intro rs
  induction rs with
  | nil =>
    intro hrs A w hinv
    exact ⟨A, hinv, fun c hc => hc, fun r hr => absurd hr (by simp)⟩
  | cons r rs ih =>
    intro hrs A w hinv
    obtain ⟨i, n, hni, hrn⟩ := hrs r (List.mem_cons_self r rs)
    obtain ⟨A1, hinv1, hmono1, hi1⟩ :=
      linkStep_inv src hfens h2 h4 h5 h8 dom τ hdomAll htau_inj A w hinv i n hni
    rw [← hrn] at hinv1
    obtain ⟨A2, hinv2, hmono2, hcov2⟩ :=
      ih (fun r2 hr2 => hrs r2 (List.mem_cons_of_mem _ hr2)) A1 (linkStep w r) hinv1
    refine ⟨A2, hinv2, fun c hc => hmono2 c (hmono1 c hc), ?_⟩
    intro r2 hr2 j2 n2 hnj2 hrn2 hj2ne
    rcases List.mem_cons.mp hr2 with hr2r | hr2rs
    · have hfe : n2.fen = n.fen := by
        have : recOf src n2 = recOf src n := by rw [← hrn2, ← hrn, hr2r]
        have := congrArg SRec.fen this
        simpa [recOf] using this
      have hj2i : j2 = i := fen_getElem_inj src hfens j2 i n2 n hnj2 hni hfe
      rw [hj2i]
      exact hmono2 i (hi1 (hj2i ▸ hj2ne))
    · exact hcov2 r2 hr2rs j2 n2 hnj2 hrn2 hj2ne

/-- After the linking pass is complete (every non-root slot attached), a
source `findChildByMove` step is mirrored exactly in the reconstructed
arena. -/
theorem link_findChild_corr (src : List RNode) (dom : List Nat) (τ : Nat → Nat)
    (A : List Nat) (w : RTree) (hinv : LinkInv src dom τ A w)
    (hdomAll : ∀ k, k < src.length → k ∈ dom)
    (hAall : ∀ k, k < src.length → k ≠ 0 → k ∈ A)
    (h4 : ∀ p ∈ List.range src.length, ∀ c ∈ childrenOf src p,
      c < src.length ∧ p < c)
    (h5 : ∀ i ∈ List.range src.length, i ≠ 0 →
      ∃ p ∈ List.range src.length, i ∈ childrenOf src p)
    (h8 : ∀ p ∈ List.range src.length, ∀ i ∈ childrenOf src p,
      src[i]?.map (fun x => x.parent) = some (some p))
    (h9 : siblingMovesUnique src) :
    ∀ (p : Nat) (np : RNode) (mv : String) (c : Nat),
      src[p]? = some np → findChildIn src np mv = some c →
      ∃ wp, w.nodes[τ p]? = some wp ∧ findChildIn w.nodes wp mv = some (τ c) ∧
        c < src.length := by
  intro p np mv c hnp hfc
  have hplt : p < src.length := lt_of_getElem?_eq_some _ _ _ hnp
  have hpdom : p ∈ dom := hdomAll p hplt
  obtain ⟨wp, hwp, _, _, _, _, _, hwpch⟩ := hinv.slot p hpdom np hnp
  have hchp : childrenOf src p = np.children := by
    unfold childrenOf
    rw [hnp]
    rfl
  have hcmem : c ∈ childrenOf src p := by
    rw [hchp]
    exact List.mem_of_find?_eq_some hfc
  obtain ⟨hclt, hpc⟩ := h4 p (List.mem_range.mpr hplt) c hcmem
  have hcne0 : c ≠ 0 := by omega
  have hcA : c ∈ A := hAall c hclt hcne0
  obtain ⟨nc, hnc⟩ : ∃ nc, src[c]? = some nc := ⟨_, List.getElem?_eq_getElem hclt⟩
  have hcmv : nc.move = mv := by
    have := List.find?_some hfc
    simp only [hnc, Option.map_some', decide_eq_true_eq] at this
    exact Option.some.inj this
  have hparc : nc.parent = some p := by
    have := h8 p (List.mem_range.mpr hplt) c hcmem
    rw [hnc] at this
    simpa using this
  obtain ⟨wc, hwc, _, hwcm, _, _, _, _⟩ := hinv.slot c (hdomAll c hclt) nc hnc
  refine ⟨wp, hwp, ?_, hclt⟩
  unfold findChildIn
  rw [hwpch]
  apply find?_eq_of_unique
  · refine List.mem_map.mpr ⟨c, ?_, rfl⟩
    refine List.mem_filter.mpr ⟨hcA, ?_⟩
    simp [hnc, hparc]
  · rw [hwc]
    simp [hwcm, hcmv]
  · intro y hy hpy
    rw [List.mem_map] at hy
    obtain ⟨x, hxf, rfl⟩ := hy
    obtain ⟨hxA, hxp⟩ := List.mem_filter.mp hxf
    obtain ⟨hxdom, hxne⟩ := hinv.A_sub x hxA
    have hxlt : x < src.length := by
      by_contra hge
      have : src[x]? = none := List.getElem?_eq_none (Nat.le_of_not_lt hge)
      rw [this] at hxp
      simp at hxp
    obtain ⟨nx, hnx⟩ : ∃ nx, src[x]? = some nx := ⟨_, List.getElem?_eq_getElem hxlt⟩
    have hparx : nx.parent = some p := by
      rw [hnx] at hxp
      simpa using hxp
    obtain ⟨wx, hwx, _, hwxm, _, _, _, _⟩ := hinv.slot x hxdom nx hnx
    have hxmv : nx.move = mv := by
      rw [hwx] at hpy
      simp only [Option.map_some', decide_eq_true_eq] at hpy
      rw [hwxm] at hpy
      exact Option.some.inj hpy
    have hxch : x ∈ childrenOf src p := by
      obtain ⟨q, hq, hxq⟩ := h5 x (List.mem_range.mpr hxlt) hxne
      have := h8 q hq x hxq
      rw [hnx] at this
      have hqp : q = p := by
        have h1 : nx.parent = some q := by simpa using this
        rw [hparx] at h1
        exact (Option.some.inj h1).symm
      rw [← hqp]
      exact hxq
    have hxc : x = c := by
      have hmap := h9 p (List.mem_range.mpr hplt)
      refine List.inj_on_of_nodup_map hmap hxch hcmem ?_
      rw [hnx, hnc]
      simp [hxmv, hcmv]
    rw [hxc]

theorem rebuildMap_nodes (t : RTree) : (rebuildMap t).nodes = t.nodes := rfl

/-- Whole-path correspondence between the source tree and the linked
reconstruction. -/
theorem walk_corr (src : List RNode) (dom : List Nat) (τ : Nat → Nat)
    (A : List Nat) (w : RTree) (hinv : LinkInv src dom τ A w)
    (hdomAll : ∀ k, k < src.length → k ∈ dom)
    (hAall : ∀ k, k < src.length → k ≠ 0 → k ∈ A)
    (h4 : ∀ p ∈ List.range src.length, ∀ c ∈ childrenOf src p,
      c < src.length ∧ p < c)
    (h5 : ∀ i ∈ List.range src.length, i ≠ 0 →
      ∃ p ∈ List.range src.length, i ∈ childrenOf src p)
    (h8 : ∀ p ∈ List.range src.length, ∀ i ∈ childrenOf src p,
      src[i]?.map (fun x => x.parent) = some (some p))
    (h9 : siblingMovesUnique src) :
    ∀ (path : List String) (i j : Nat), i < src.length →
      path.foldl (fun acc mv => acc.bind (fun x => src[x]?.bind
        (fun n => findChildIn src n mv))) (some i) = some j →
      path.foldl (fun acc mv => acc.bind (fun x => w.nodes[x]?.bind
        (fun n => findChildIn w.nodes n mv))) (some (τ i)) = some (τ j) ∧
        j < src.length := by
  intro path
  induction path with
  | nil =>
    intro i j hi hj
    rw [List.foldl_nil] at hj
    have hij : i = j := Option.some.inj hj
    rw [List.foldl_nil, hij]
    exact ⟨rfl, hij ▸ hi⟩
  | cons mv path ih =>
    intro i j hi hj
    rw [List.foldl_cons, Option.some_bind] at hj
    obtain ⟨ni, hni⟩ : ∃ ni, src[i]? = some ni := ⟨_, List.getElem?_eq_getElem hi⟩
    rw [hni, Option.some_bind] at hj
    cases hfc : findChildIn src ni mv with
    | none =>
      rw [hfc, foldl_bind_none] at hj
      exact Option.noConfusion hj
    | some c =>
      rw [hfc] at hj
      obtain ⟨wp, hwp, hwfc, hclt⟩ :=
        link_findChild_corr src dom τ A w hinv hdomAll hAall h4 h5 h8 h9 i ni mv c hni hfc
      rw [List.foldl_cons, Option.some_bind, hwp, Option.some_bind, hwfc]
      exact ih c j hclt hj

/-! ## C1: the serialize/deserialize round trip -/

/-- C1 as amended: for a tree built by successful `addMove` calls in which
no two nodes share a position key *and additionally no two nodes share the
dedup string `fen ++ "_" ++ move`* (no underscore ambiguity — forced by
the counterexample), deserializing the serialized records with the tree's
own root FEN succeeds and yields a tree with the same root key in which
every move path of the original resolves to a node with the same key,
comment and labels. -/
theorem serialize_deserialize_round_trip (t : RTree) (hb : Built t)
    (hfens : (t.nodes.map (fun n => n.fen)).Nodup)
    (hconcat : (t.nodes.map concatKey).Nodup) :
    ∃ t2, deserialize (.arr (serializeRecords t)) (rootFenStr t) = .ok t2 ∧
      rootFenStr t2 = rootFenStr t ∧
      (∀ (path : List String) (j : Nat), findNodeByMoves t path = some j →
        ∃ j2 : Nat, findNodeByMoves t2 path = some j2 ∧
          t2.nodes[j2]?.map (fun n => n.fen) = t.nodes[j]?.map (fun n => n.fen) ∧
          t2.nodes[j2]?.map (fun n => n.comment) = t.nodes[j]?.map (fun n => n.comment) ∧
          t2.nodes[j2]?.map (fun n => n.labels) = t.nodes[j]?.map (fun n => n.labels)) := by
  have hW := built_WF t hb
  have h1 : 0 < t.nodes.length := hW.1
  have h2 := hW.2.1
  have h3 := hW.2.2.1
  have h4 := hW.2.2.2.1
  have h5 := hW.2.2.2.2.1
  have h6 := hW.2.2.2.2.2.1
  have h7 := hW.2.2.2.2.2.2.1
  have h8 := hW.2.2.2.2.2.2.2.1
  have h9 := hW.2.2.2.2.2.2.2.2
  obtain ⟨n0, h0⟩ : ∃ n0, t.nodes[0]? = some n0 := ⟨_, List.getElem?_eq_getElem h1⟩
  have hmove0 : n0.move = "root" := by
    rw [h0] at h3
    simpa using h3
  have hroot : rootFenStr t = n0.fen := by
    unfold rootFenStr
    rw [h0]
    rfl
  have hsound : ∀ r ∈ serializeRecords t,
      ∃ (i : Nat) (n : RNode), t.nodes[i]? = some n ∧ r = recOf t.nodes n :=
    fun r hr => serializeRecords_sound t r hr
  have hcomplete := serializeRecords_complete t hW hconcat
  have hne : ¬ (serializeRecords t).length = 0 := by
    intro hlen
    have := hcomplete 0 n0 h0
    rw [List.length_eq_zero.mp hlen] at this
    cases this
  have hfind := find_root_record t hW hfens hconcat n0 h0
  have hdes : deserialize (.arr (serializeRecords t)) (rootFenStr t) =
      .ok (rebuildMap (link (serializeRecords t) (materialize (serializeRecords t)
        { nodes := [⟨(recOf t.nodes n0).fen, "root", none, [],
            jsOrElse (recOf t.nodes n0).comment "", (recOf t.nodes n0).labels⟩],
          nodeMap := [((recOf t.nodes n0).fen, 0)] }))) := by
    unfold deserialize
    dsimp only
    rw [if_neg hne, hfind]
  have ht0nodes :
      ([(⟨(recOf t.nodes n0).fen, "root", none, [],
          jsOrElse (recOf t.nodes n0).comment "", (recOf t.nodes n0).labels⟩ : RNode)]) =
        [mkNodeOf n0] := by
    unfold mkNodeOf recOf
    rw [jsOrElse_empty, hmove0]
  have hminv0 : MatInv t.nodes [0] (fun _ => 0)
      { nodes := [(⟨(recOf t.nodes n0).fen, "root", none, [],
          jsOrElse (recOf t.nodes n0).comment "", (recOf t.nodes n0).labels⟩ : RNode)],
        nodeMap := [((recOf t.nodes n0).fen, 0)] } := by
    refine ⟨List.mem_cons_self 0 [], ?_, rfl, ?_, ?_, ?_, ?_⟩
    · intro i hi
      have : i = 0 := by simpa using hi
      rw [this]
      exact h1
    · intro i hi
      show (0 : Nat) < _
      rw [ht0nodes]
      simp
    · intro i hi j hj he
      have hi0 : i = 0 := by simpa using hi
      have hj0 : j = 0 := by simpa using hj
      rw [hi0, hj0]
    · intro i hi n hn
      have hi0 : i = 0 := by simpa using hi
      rw [hi0] at hn
      rw [hn] at h0
      have hnn0 : n = n0 := by
        exact Option.some.inj h0
      constructor
      · show mapGet [((recOf t.nodes n0).fen, 0)] n.fen = some 0
        rw [hnn0]
        show mapGet [(n0.fen, 0)] n0.fen = some 0
        simp [mapGet]
      · show _[(0 : Nat)]? = some (mkNodeOf n)
        rw [ht0nodes, hnn0]
        rfl
    · intro f hf
      by_cases hff : f = n0.fen
      · exact ⟨0, List.mem_cons_self 0 [], n0, h0, hff.symm⟩
      · exfalso
        apply hf
        show mapGet [((recOf t.nodes n0).fen, 0)] f = none
        have : ¬ ((recOf t.nodes n0).fen = f) := fun he => hff (by rw [← he]; rfl)
        simp [mapGet, this]
  obtain ⟨dom1, τ1, hminv1, hmono1, hfix1, hcov1⟩ :=
    materialize_inv t.nodes hfens (by rw [h0]; simpa using hmove0) (serializeRecords t)
      hsound [0] (fun _ => 0) _ hminv0
  have hdomAll : ∀ k, k < t.nodes.length → k ∈ dom1 := by
    intro k hk
    obtain ⟨nk, hnk⟩ : ∃ nk, t.nodes[k]? = some nk := ⟨_, List.getElem?_eq_getElem hk⟩
    exact hcov1 (recOf t.nodes nk) (hcomplete k nk hnk) k nk hnk rfl
  have hlinv0 : LinkInv t.nodes dom1 τ1 []
      (materialize (serializeRecords t)
        { nodes := [(⟨(recOf t.nodes n0).fen, "root", none, [],
            jsOrElse (recOf t.nodes n0).comment "", (recOf t.nodes n0).labels⟩ : RNode)],
          nodeMap := [((recOf t.nodes n0).fen, 0)] }) := by
    refine ⟨?_, ?_, ?_⟩
    · intro i hidom n hn
      exact (hminv1.slot i hidom n hn).1
    · intro c hc
      cases hc
    · intro i hidom n hn
      refine ⟨mkNodeOf n, (hminv1.slot i hidom n hn).2, rfl, rfl, rfl, rfl, ?_, ?_⟩
      · rw [if_neg (List.not_mem_nil i)]
        rfl
      · simp [mkNodeOf]
  obtain ⟨A1, hlinv1, hmonoA, hcovA⟩ :=
    link_inv t.nodes hfens h2 h4 h5 h8 dom1 τ1 hdomAll hminv1.tau_inj
      (serializeRecords t) hsound [] _ hlinv0
  have hAall : ∀ k, k < t.nodes.length → k ≠ 0 → k ∈ A1 := by
    intro k hk hkne
    obtain ⟨nk, hnk⟩ : ∃ nk, t.nodes[k]? = some nk := ⟨_, List.getElem?_eq_getElem hk⟩
    exact hcovA (recOf t.nodes nk) (hcomplete k nk hnk) k nk hnk rfl hkne
  refine ⟨_, hdes, ?_, ?_⟩
  · -- root FEN of the reconstruction
    obtain ⟨w0, hw0, hw0f, _, _, _, _, _⟩ := hlinv1.slot 0 (hdomAll 0 h1) n0 h0
    rw [hminv1.tau_zero] at hw0
    have : (rebuildMap (link (serializeRecords t) (materialize (serializeRecords t)
        { nodes := [(⟨(recOf t.nodes n0).fen, "root", none, [],
            jsOrElse (recOf t.nodes n0).comment "", (recOf t.nodes n0).labels⟩ : RNode)],
          nodeMap := [((recOf t.nodes n0).fen, 0)] }))).nodes[(0 : Nat)]? = some w0 := hw0
    rw [hroot]
    unfold rootFenStr
    rw [this]
    simp [hw0f]
  · -- path correspondence
    intro path j hpath
    have hwalk := walk_corr t.nodes dom1 τ1 A1 _ hlinv1 hdomAll hAall h4 h5 h8 h9
      path 0 j h1 hpath
    obtain ⟨hw, hjlt⟩ := hwalk
    obtain ⟨nj, hnj⟩ : ∃ nj, t.nodes[j]? = some nj := ⟨_, List.getElem?_eq_getElem hjlt⟩
    obtain ⟨wj, hwj, hwjf, _, hwjc, hwjl, _, _⟩ := hlinv1.slot j (hdomAll j hjlt) nj hnj
    refine ⟨τ1 j, ?_, ?_, ?_, ?_⟩
    · show findNodeByMoves _ path = some (τ1 j)
      rw [findNodeByMoves]
      have hstart : (some 0 : Option Nat) = some (τ1 0) := by rw [hminv1.tau_zero]
      rw [hstart]
      exact hw
    · rw [rebuildMap_nodes, hwj, hnj]
      simp [hwjf]
    · rw [rebuildMap_nodes, hwj, hnj]
      simp [hwjc]
    · rw [rebuildMap_nodes, hwj, hnj]
      simp [hwjl]

/-- Counterexample to C1 as stated: the tree built by `addMove("r","a_b","c")`
then `addMove("r","a","b_c")` has pairwise-distinct position keys (no
transpositions), and the path `["b_c"]` resolves in it; yet after
serializing and deserializing with the original root key, that path
resolves to nothing — the node was dropped because its dedup string
`"a_b_c"` collided with the other child's. -/
theorem round_trip_loses_node :
    (((addMove (addMove (newTree "r") "r" "a_b" "c").tree "r" "a" "b_c").tree.nodes.map
        (fun n => n.fen)).Nodup) ∧
    findNodeByMoves (addMove (addMove (newTree "r") "r" "a_b" "c").tree "r" "a" "b_c").tree
        ["b_c"] = some 2 ∧
    (deserialize
        (.arr (serializeRecords
          (addMove (addMove (newTree "r") "r" "a_b" "c").tree "r" "a" "b_c").tree))
        (rootFenStr (addMove (addMove (newTree "r") "r" "a_b" "c").tree "r" "a" "b_c").tree)).map
      (fun t2 => findNodeByMoves t2 ["b_c"]) = .ok none := by
  exact ⟨by decide, rfl, rfl⟩

/-- Witness for the amended C1 at the spec's §8 scenario tree
(`e4`, then `c5` and `e5`): its keys and dedup strings are unambiguous,
it is reachable by `addMove` calls, and the round trip applies. -/
theorem serialize_deserialize_round_trip_witness :
    (((addMove (addMove (addMove (newTree "K0") "K0" "K1" "e4").tree "K1" "K2" "c5").tree
        "K1" "K3" "e5").tree.nodes.map (fun n => n.fen)).Nodup ∧
      ((addMove (addMove (addMove (newTree "K0") "K0" "K1" "e4").tree "K1" "K2" "c5").tree
        "K1" "K3" "e5").tree.nodes.map concatKey).Nodup) ∧
    (∃ t2, deserialize
        (.arr (serializeRecords
          (addMove (addMove (addMove (newTree "K0") "K0" "K1" "e4").tree "K1" "K2" "c5").tree
            "K1" "K3" "e5").tree))
        (rootFenStr
          (addMove (addMove (addMove (newTree "K0") "K0" "K1" "e4").tree "K1" "K2" "c5").tree
            "K1" "K3" "e5").tree) = .ok t2 ∧
      rootFenStr t2 = rootFenStr
        (addMove (addMove (addMove (newTree "K0") "K0" "K1" "e4").tree "K1" "K2" "c5").tree
          "K1" "K3" "e5").tree ∧
      (∀ (path : List String) (j : Nat),
        findNodeByMoves
          (addMove (addMove (addMove (newTree "K0") "K0" "K1" "e4").tree "K1" "K2" "c5").tree
            "K1" "K3" "e5").tree path = some j →
        ∃ j2 : Nat, findNodeByMoves t2 path = some j2 ∧
          t2.nodes[j2]?.map (fun n => n.fen) =
            (addMove (addMove (addMove (newTree "K0") "K0" "K1" "e4").tree "K1" "K2" "c5").tree
              "K1" "K3" "e5").tree.nodes[j]?.map (fun n => n.fen) ∧
          t2.nodes[j2]?.map (fun n => n.comment) =
            (addMove (addMove (addMove (newTree "K0") "K0" "K1" "e4").tree "K1" "K2" "c5").tree
              "K1" "K3" "e5").tree.nodes[j]?.map (fun n => n.comment) ∧
          t2.nodes[j2]?.map (fun n => n.labels) =
            (addMove (addMove (addMove (newTree "K0") "K0" "K1" "e4").tree "K1" "K2" "c5").tree
              "K1" "K3" "e5").tree.nodes[j]?.map (fun n => n.labels))) :=
  ⟨⟨by decide, by decide⟩,
    serialize_deserialize_round_trip
      (addMove (addMove (addMove (newTree "K0") "K0" "K1" "e4").tree "K1" "K2" "c5").tree
        "K1" "K3" "e5").tree
      (Built.step _ "K1" "K3" "e5" 3
        (Built.step _ "K1" "K2" "c5" 2
          (Built.step _ "K0" "K1" "e4" 1 (Built.fresh "K0") rfl) rfl) rfl)
      (by decide) (by decide)⟩
